import Mathlib

/-!
A verification development for the core of the DE-Sim discrete-event
simulation engine, following the repository specification of its data
model (events, event messages, the global event heap), its scheduling
operations (`send_event`, `send_event_at`), its dispatcher, and its
run loop with stop conditions and run metadata.

The repository copy at hand contains the papers, README, docs, the
performance notebook and profiler output, but not the Python modules
`simulator.py`, `simulation_object.py`, `event.py`, `event_message.py`
themselves; every definition below is therefore modelled from the
specification text (sections 3 to 7), with the notebook and profiler
output used as witnesses of concrete behaviour.
-/

namespace DESim

/-! Simulation time: a totally ordered numeric value (spec section 3,
"Time"); modelled directly as `Int` throughout. -/

/-- Modelled from the spec: an `EventMessage` value (spec section 3);
a discriminated-union payload with a variant tag and positionally
assigned typed fields (`msg_field_names` contract).  Python object
identity is modelled by `msg_id`, so that a deep copy (fresh identity,
equal value) is distinguishable from a move (same identity). -/
structure EventMessage where
  variant : String
  field_names : List String
  field_values : List Int
  msg_id : Nat
deriving DecidableEq

/-- The value of a message: everything except its identity. -/
def msgValue (m : EventMessage) : String × List String × List Int :=
  (m.variant, m.field_names, m.field_values)

/-- Modelled from the spec: user construction of an `EventMessage`
with positional arguments assigned in order to `msg_field_names`
(tutorial step 1).  Freshly constructed user messages carry identity 0. -/
def mkMessage (variant : String) (names : List String) (args : List Int) :
    EventMessage :=
  ⟨variant, names, args, 0⟩

/-- Read a message attribute by field name. -/
def getField (m : EventMessage) (f : String) : Option Int :=
  (m.field_names.zip m.field_values).lookup f

/-- Modelled from the spec: the deep copy of a message performed on the
`send_event` path for defensive isolation (design note section 9 and
the profile of `send_event_absolute`): the value is preserved and a
fresh identity is allocated. -/
def deepCopy (m : EventMessage) (fresh : Nat) : EventMessage :=
  { m with msg_id := fresh }

/-- Modelled from the spec: the `Event` scheduling record
(spec section 3). -/
structure Event where
  creation_time : Int
  receive_time : Int
  sender : String
  receiver : String
  message : EventMessage
  sequence_number : Nat
deriving DecidableEq

/-- One dispatched event as observed in the run log: the tuple
`(receive_time, receiver, sender, sequence_number, variant)` of
property P3. -/
structure LogEntry where
  receive_time : Int
  receiver : String
  sender : String
  sequence_number : Nat
  variant : String
deriving DecidableEq

/-- The log record of an event at dispatch. -/
def logEntryOf (e : Event) : LogEntry :=
  ⟨e.receive_time, e.receiver, e.sender, e.sequence_number, e.message.variant⟩

/-- A scheduling request made by user code: either relative
(`send_event(delay, …)`) or absolute (`send_event_at(t, …)`). -/
inductive SchedTime where
  | delay (d : Int)
  | absolute (t : Int)
deriving DecidableEq

/-- A `send_event` request staged by a handler. -/
structure SendReq where
  sched : SchedTime
  receiver : String
  message : EventMessage

/-- An event handler: takes the object's local state, the current
simulation time and the event, and returns the new local state plus
the scheduling requests it made. -/
abbrev HandlerFn := List Int → Int → Event → List Int × List SendReq

/-- Modelled from the spec and the source examples: an entry of
`event_handlers` names its handler either by the method object itself
or by the method's name as a string (README example versus the
performance-notebook example). -/
inductive HandlerSpec where
  | byFn (f : HandlerFn)
  | byName (n : String)

/-- Modelled from the spec: the per-class contract of a
`SimulationObject` subclass (spec section 4.3): the handler table, the
method table used to resolve string-named handlers, an optional batch
handler, the declared list of sent message variants, and the pre-run
callback. -/
structure SimObjClass where
  event_handlers : List (String × HandlerSpec)
  methods : List (String × HandlerFn)
  batch_handler : Option (List Int → Int → List Event → List Int × List SendReq)
  messages_sent : List String
  init_before_run : List Int → String → List Int × List SendReq

/-- Modelled from the spec: a registered simulation object: unique
name, priority key (default 0), class contract and local state. -/
structure SimObj where
  name : String
  priority_key : Int
  cls : SimObjClass
  state : List Int

/-- Resolve a handler specification against the class's method table. -/
def resolveHandler (cls : SimObjClass) : HandlerSpec → Option HandlerFn
  | .byFn f => some f
  | .byName n => cls.methods.lookup n

/-- The handler a class uses for a message variant. -/
def handlerFor (cls : SimObjClass) (variant : String) : Option HandlerFn :=
  match cls.event_handlers.lookup variant with
  | none => none
  | some hs => resolveHandler cls hs

/-- Whether a class can receive a variant: it appears in the handler
table or the class has a batch handler (spec section 3, I5). -/
def hasHandler (cls : SimObjClass) (variant : String) : Bool :=
  (cls.event_handlers.lookup variant).isSome || cls.batch_handler.isSome

/-- Find a registered object by name. -/
def findObj (objs : List SimObj) (n : String) : Option SimObj :=
  objs.find? (fun o => o.name == n)

/-- The priority key of the named object (default 0). -/
def priorityOf (objs : List SimObj) (n : String) : Int :=
  match findObj objs n with
  | some o => o.priority_key
  | none => 0

/-- Snapshot of all object states, as seen by a stop condition. -/
def objStates (objs : List SimObj) : List (String × List Int) :=
  objs.map (fun o => (o.name, o.state))

/-- Replace the local state of the named object. -/
def updateObjState (objs : List SimObj) (n : String) (st : List Int) :
    List SimObj :=
  objs.map (fun o => if o.name = n then { o with state := st } else o)

/-- Modelled from the spec: the scheduling-error taxonomy
(spec section 7). -/
inductive SchedulingError where
  | DuplicateObjectName (name : String)
  | UnknownReceiver (name : String)
  | UndeclaredSentVariant (sender variant : String)
  | NoHandlerForVariant (receiver variant : String)
  | NegativeDelay (d : Int)
  | PastScheduling (now receive_time : Int)
deriving DecidableEq

/-- Modelled from the spec: the simulator core record (spec section 3,
"Simulator"): current time, event heap, registered objects, the
monotonic sequence-number counter and the optional stop condition. -/
structure CoreState where
  current_time : Int
  event_heap : List Event
  objects : List SimObj
  next_sequence_number : Nat
  stop_condition : Option (List (String × List Int) → Bool)

/-- The global ordering key of an event (spec section 3):
`(receive_time, receiver.priority_key, receiver.identifier,
sequence_number)`. -/
def evKey (objs : List SimObj) (e : Event) : Int × Int × String × Nat :=
  (e.receive_time, priorityOf objs e.receiver, e.receiver, e.sequence_number)

/-- One step of lexicographic comparison: strictly smaller first
component, or equal first components and related second components. -/
def lexStep {α β : Type} [LinearOrder α] (rb : β → β → Prop) (p q : α × β) :
    Prop :=
  p.1 < q.1 ∨ (p.1 = q.1 ∧ rb p.2 q.2)

instance {α β : Type} [LinearOrder α] (rb : β → β → Prop) [DecidableRel rb] :
    DecidableRel (lexStep rb : α × β → α × β → Prop) := fun p q => by
  unfold lexStep; infer_instance

instance {α β : Type} [LinearOrder α] (rb : β → β → Prop) [IsTotal β rb] :
    IsTotal (α × β) (lexStep rb) := by
  refine ⟨fun p q => ?_⟩
  rcases lt_trichotomy p.1 q.1 with h | h | h
  · exact Or.inl (Or.inl h)
  · rcases total_of rb p.2 q.2 with h2 | h2
    · exact Or.inl (Or.inr ⟨h, h2⟩)
    · exact Or.inr (Or.inr ⟨h.symm, h2⟩)
  · exact Or.inr (Or.inl h)

instance {α β : Type} [LinearOrder α] (rb : β → β → Prop) [IsTrans β rb] :
    IsTrans (α × β) (lexStep rb) := by
  refine ⟨fun p q r hpq hqr => ?_⟩
  rcases hpq with h1 | ⟨e1, h1⟩
  · rcases hqr with h2 | ⟨e2, h2⟩
    · exact Or.inl (h1.trans h2)
    · exact Or.inl (e2 ▸ h1)
  · rcases hqr with h2 | ⟨e2, h2⟩
    · exact Or.inl (e1 ▸ h2)
    · exact Or.inr ⟨e1.trans e2, Trans.trans h1 h2⟩

/-- Lexicographic order on `(name, sequence_number)` tails. -/
def keyLe2 : String × Nat → String × Nat → Prop :=
  lexStep (· ≤ ·)

/-- Lexicographic order on 4-component keys. -/
def keyLe4 : Int × Int × String × Nat → Int × Int × String × Nat → Prop :=
  lexStep (lexStep keyLe2)

instance : DecidableRel keyLe2 := fun a b => by
  unfold keyLe2; infer_instance

instance : IsTotal (String × Nat) keyLe2 := by
  unfold keyLe2; infer_instance

instance : IsTrans (String × Nat) keyLe2 := by
  unfold keyLe2; infer_instance

instance : DecidableRel keyLe4 := fun a b => by
  unfold keyLe4; infer_instance

instance : IsTotal (Int × Int × String × Nat) keyLe4 := by
  unfold keyLe4; infer_instance

instance : IsTrans (Int × Int × String × Nat) keyLe4 := by
  unfold keyLe4; infer_instance

/-- The heap order on events: lexicographic comparison of global keys. -/
def evLe (objs : List SimObj) (a b : Event) : Prop :=
  keyLe4 (evKey objs a) (evKey objs b)

instance (objs : List SimObj) : DecidableRel (evLe objs) := fun a b => by
  unfold evLe; infer_instance

instance (objs : List SimObj) : IsTotal Event (evLe objs) := by
  refine ⟨fun a b => ?_⟩
  unfold evLe
  exact total_of keyLe4 _ _

instance (objs : List SimObj) : IsTrans Event (evLe objs) := by
  refine ⟨fun a b c h1 h2 => ?_⟩
  unfold evLe at *
  exact Trans.trans h1 h2

/-- The dispatcher's tie-breaking key for simultaneous events at one
receiver: `(sender.priority_key, sender.name, sequence_number)`
(spec sections 4.4 and 5, property P4). -/
def senderKey (objs : List SimObj) (e : Event) : Int × String × Nat :=
  (priorityOf objs e.sender, e.sender, e.sequence_number)

/-- Lexicographic order on 3-component sender keys. -/
def keyLe3 : Int × String × Nat → Int × String × Nat → Prop :=
  lexStep keyLe2

instance : DecidableRel keyLe3 := fun a b => by
  unfold keyLe3; infer_instance

instance : IsTotal (Int × String × Nat) keyLe3 := by
  unfold keyLe3; infer_instance

instance : IsTrans (Int × String × Nat) keyLe3 := by
  unfold keyLe3; infer_instance

/-- The dispatch order on events of one frontier. -/
def senderLe (objs : List SimObj) (a b : Event) : Prop :=
  keyLe3 (senderKey objs a) (senderKey objs b)

instance (objs : List SimObj) : DecidableRel (senderLe objs) := fun a b => by
  unfold senderLe; infer_instance

instance (objs : List SimObj) : IsTotal Event (senderLe objs) := by
  refine ⟨fun a b => ?_⟩
  unfold senderLe
  exact total_of keyLe3 _ _

instance (objs : List SimObj) : IsTrans Event (senderLe objs) := by
  refine ⟨fun a b c h1 h2 => ?_⟩
  unfold senderLe at *
  exact Trans.trans h1 h2

/-- Modelled from the spec: `EventHeap.push` (spec section 4.2): the
heap maintains pending events in the global order; modelled as ordered
insertion into a sorted list. -/
def heapPush (objs : List SimObj) (e : Event) (h : List Event) : List Event :=
  List.orderedInsert (evLe objs) e h

/-- Modelled from the spec: the validated scheduling path shared by
`send_event` and `send_event_at` (spec sections 4.3 and 7): reject
scheduling in the past (I2), undeclared sent variants, unknown
receivers and variants without a handler at the receiver; otherwise
deep-copy the message, stamp the next sequence number and push the
event. -/
def scheduleEvent (s : CoreState) (senderName : String)
    (senderCls : SimObjClass) (receive_time : Int) (recvName : String)
    (m : EventMessage) : Except SchedulingError CoreState :=
  if receive_time < s.current_time then
    .error (.PastScheduling s.current_time receive_time)
  else if m.variant ∈ senderCls.messages_sent then
    match findObj s.objects recvName with
    | none => .error (.UnknownReceiver recvName)
    | some ro =>
      if hasHandler ro.cls m.variant then
        .ok { s with
          event_heap := heapPush s.objects
            ⟨s.current_time, receive_time, senderName, recvName,
              deepCopy m (s.next_sequence_number + 1),
              s.next_sequence_number⟩ s.event_heap,
          next_sequence_number := s.next_sequence_number + 1 }
      else .error (.NoHandlerForVariant recvName m.variant)
  else .error (.UndeclaredSentVariant senderName m.variant)

/-- Perform one scheduling request: `send_event` checks `delay ≥ 0`
(I1) and schedules at `current_time + delay`; `send_event_at`
schedules at the absolute time. -/
def sendOne (s : CoreState) (senderName : String) (senderCls : SimObjClass)
    (r : SendReq) : Except SchedulingError CoreState :=
  match r.sched with
  | .delay d =>
    if d < 0 then .error (.NegativeDelay d)
    else scheduleEvent s senderName senderCls (s.current_time + d)
      r.receiver r.message
  | .absolute t => scheduleEvent s senderName senderCls t r.receiver r.message

/-- `send_event_at` with the exception semantics made explicit: on an
error the simulator state (in particular the heap) is returned
unchanged alongside the raised error. -/
def sendEventAtTracked (s : CoreState) (senderName : String)
    (senderCls : SimObjClass) (t : Int) (recvName : String)
    (m : EventMessage) : CoreState × Option SchedulingError :=
  match scheduleEvent s senderName senderCls t recvName m with
  | .error e => (s, some e)
  | .ok s' => (s', none)

/-- Stage a handler's scheduling requests into the heap, in order;
the first scheduling error aborts (spec section 7 policy). -/
def processSendReqs (s : CoreState) (senderName : String)
    (senderCls : SimObjClass) : List SendReq → Except SchedulingError CoreState
  | [] => .ok s
  | r :: rest =>
    match sendOne s senderName senderCls r with
    | .error e => .error e
    | .ok s' => processSendReqs s' senderName senderCls rest

/-- Modelled from the spec: per-event dispatch (spec section 4.4,
case 2): for each event in frontier order, look up the receiver,
select the handler for the message variant (a missing handler is a
fatal dispatch error), invoke it, commit the new local state and stage
its scheduling requests.  Returns the updated core and the log
entries of the handler invocations, in invocation order. -/
def dispatchEvents (s : CoreState) :
    List Event → Except SchedulingError (CoreState × List LogEntry)
  | [] => .ok (s, [])
  | e :: rest =>
    match findObj s.objects e.receiver with
    | none => .error (.UnknownReceiver e.receiver)
    | some obj =>
      match handlerFor obj.cls e.message.variant with
      | none => .error (.NoHandlerForVariant e.receiver e.message.variant)
      | some f =>
        let pr := f obj.state s.current_time e
        let s1 : CoreState :=
          { s with objects := updateObjState s.objects e.receiver pr.1 }
        match processSendReqs s1 e.receiver obj.cls pr.2 with
        | .error err => .error err
        | .ok s2 =>
          match dispatchEvents s2 rest with
          | .error err => .error err
          | .ok (s3, entries) => .ok (s3, logEntryOf e :: entries)

/-- The deterministic order in which the events of one frontier are
delivered: sorted by `(sender.priority_key, sender.name,
sequence_number)` (spec sections 4.4 and 5). -/
def sortFrontier (objs : List SimObj) (frontier : List Event) : List Event :=
  List.insertionSort (senderLe objs) frontier

/-- Modelled from the spec: the dispatcher (spec section 4.4): a
frontier of events tied at one `(receive_time, receiver)` goes to the
batch handler as a single ordered vector when one is declared,
otherwise each event's handler runs in the deterministic frontier
order. -/
def dispatchFrontier (s : CoreState) (frontier : List Event) :
    Except SchedulingError (CoreState × List LogEntry) :=
  match frontier with
  | [] => .ok (s, [])
  | e :: _ =>
    match findObj s.objects e.receiver with
    | none => .error (.UnknownReceiver e.receiver)
    | some obj =>
      match obj.cls.batch_handler with
      | some bh =>
        let ordered := sortFrontier s.objects frontier
        let pr := bh obj.state s.current_time ordered
        let s1 : CoreState :=
          { s with objects := updateObjState s.objects e.receiver pr.1 }
        match processSendReqs s1 e.receiver obj.cls pr.2 with
        | .error err => .error err
        | .ok s2 => .ok (s2, ordered.map logEntryOf)
      | none => dispatchEvents s (sortFrontier s.objects frontier)

/-- Modelled from the spec: `EventHeap.pop_frontier`
(spec section 4.2): pop all events sharing the front's `receive_time`
and `receiver`; events for other receivers at the same time stay in
the heap for later frontier calls. -/
def popFrontier : List Event → List Event × List Event
  | [] => ([], [])
  | e :: rest =>
    (e :: rest.takeWhile
        (fun e' => e'.receive_time == e.receive_time &&
          e'.receiver == e.receiver),
      rest.dropWhile
        (fun e' => e'.receive_time == e.receive_time &&
          e'.receiver == e.receiver))

/-- Whether the configured stop condition fires on the current object
states (spec section 4.6). -/
def stopNow (s : CoreState) : Bool :=
  match s.stop_condition with
  | some p => p (objStates s.objects)
  | none => false

/-- Modelled from the spec: termination reasons of the run summary
(spec section 4.7); `out_of_fuel` is an artifact of the fuelled
embedding and is never returned when enough fuel is supplied. -/
inductive TerminationReason where
  | no_events
  | max_time_reached
  | stop_condition
  | errored (e : SchedulingError)
  | out_of_fuel
deriving DecidableEq

/-- Accumulators threaded through the run loop. -/
structure RunAcc where
  num_events : Nat
  num_frontiers : Nat
  stop_evals : Nat
  log : List LogEntry

/-- Modelled from the spec: the run summary (spec section 4.7)
together with the final core state, the ordered dispatch log and the
instrumentation counters (frontiers dispatched, stop-condition
evaluations). -/
structure RunResult where
  final : CoreState
  num_events : Nat
  num_frontiers : Nat
  stop_evals : Nat
  log : List LogEntry
  termination_reason : TerminationReason
  final_sim_time : Int

/-- Modelled from the spec: the simulator run loop (spec section 4.5):
while the heap is non-empty, peek the next time; stop with
`max_time_reached` if it exceeds `max_time`; consult the stop
condition before advancing time; otherwise advance `current_time`,
pop the frontier and dispatch it.  An empty heap gives `no_events`;
a scheduling or dispatch error aborts the run. -/
def runLoop : Nat → CoreState → Int → RunAcc → RunResult
  | 0, s, _, acc =>
    ⟨s, acc.num_events, acc.num_frontiers, acc.stop_evals, acc.log,
      .out_of_fuel, s.current_time⟩
  | fuel + 1, s, max_time, acc =>
    match s.event_heap with
    | [] =>
      ⟨s, acc.num_events, acc.num_frontiers, acc.stop_evals, acc.log,
        .no_events, s.current_time⟩
    | e :: _ =>
      if max_time < e.receive_time then
        ⟨s, acc.num_events, acc.num_frontiers, acc.stop_evals, acc.log,
          .max_time_reached, s.current_time⟩
      else
        let evals' := acc.stop_evals +
          (if s.stop_condition.isSome then 1 else 0)
        if stopNow s then
          ⟨s, acc.num_events, acc.num_frontiers, evals', acc.log,
            .stop_condition, s.current_time⟩
        else
          let s1 : CoreState := { s with current_time := e.receive_time }
          let fr := popFrontier s1.event_heap
          match dispatchFrontier { s1 with event_heap := fr.2 } fr.1 with
          | .error err =>
            ⟨s1, acc.num_events, acc.num_frontiers, evals', acc.log,
              .errored err, s1.current_time⟩
          | .ok (s2, entries) =>
            runLoop fuel s2 max_time
              ⟨acc.num_events + fr.1.length, acc.num_frontiers + 1,
                evals', acc.log ++ entries⟩

/-- `run(max_time)` from a ready core state, with fresh counters. -/
def simulate (fuel : Nat) (s : CoreState) (max_time : Int) : RunResult :=
  runLoop fuel s max_time ⟨0, 0, 0, []⟩

/-- Modelled from the spec: `add_object` (spec section 6): errors on a
duplicate name, otherwise appends in registration order. -/
def addObject (s : CoreState) (o : SimObj) : Except SchedulingError CoreState :=
  if (findObj s.objects o.name).isSome then
    .error (.DuplicateObjectName o.name)
  else .ok { s with objects := s.objects ++ [o] }

/-- Sequential registration of a list of objects. -/
def addObjects (s : CoreState) : List SimObj → Except SchedulingError CoreState
  | [] => .ok s
  | o :: rest =>
    match addObject s o with
    | .error e => .error e
    | .ok s' => addObjects s' rest

/-- Run the pre-run callbacks of the given objects, in order, staging
the initial events each callback schedules. -/
def initObjs (s : CoreState) : List SimObj → Except SchedulingError CoreState
  | [] => .ok s
  | o :: rest =>
    let pr := o.cls.init_before_run o.state o.name
    let s1 : CoreState :=
      { s with objects := updateObjState s.objects o.name pr.1 }
    match processSendReqs s1 o.name o.cls pr.2 with
    | .error e => .error e
    | .ok s2 => initObjs s2 rest

/-- Modelled from the spec: `initialize()` (spec section 4.5): call
`pre_run_init` on each registered object in registration order. -/
def initSim (s : CoreState) : Except SchedulingError CoreState :=
  initObjs s s.objects

/-- An empty core with the given registered objects and stop
condition: time 0, empty heap, sequence counter 0. -/
def mkCore (objs : List SimObj)
    (stop : Option (List (String × List Int) → Bool)) : CoreState :=
  ⟨0, [], objs, 0, stop⟩

/-- Modelled from the spec: a full simulator instance: the core plus
per-run metadata (the recorded start wall-clock time, spec section
4.7), which the event-dispatching core never reads. -/
structure Simulator where
  core : CoreState
  start_wall_time : Int

/-- `initialize(); run(T)` on a simulator instance. -/
def initAndRun (fuel : Nat) (sim : Simulator) (max_time : Int) :
    Option RunResult :=
  match initSim sim.core with
  | .error _ => none
  | .ok c => some (simulate fuel c max_time)

/-! ### Invariants of a well-formed core -/

/-- The heap is kept in global key order (spec section 4.2) and no
pending event is scheduled before the current time (I2). -/
def coreOk (s : CoreState) : Prop :=
  List.Sorted (evLe s.objects) s.event_heap ∧
  ∀ e ∈ s.event_heap, s.current_time ≤ e.receive_time

instance (s : CoreState) : Decidable (coreOk s) := by
  unfold coreOk List.Sorted; infer_instance

/-- The part of the object list that the event ordering key can see:
names and priority keys, in order. -/
def objsShape (objs : List SimObj) : List (String × Int) :=
  objs.map (fun o => (o.name, o.priority_key))

/-- The event produced for a validated scheduling call. -/
def schedEv (s : CoreState) (senderName : String) (receive_time : Int)
    (recvName : String) (m : EventMessage) : Event :=
  ⟨s.current_time, receive_time, senderName, recvName,
    deepCopy m (s.next_sequence_number + 1), s.next_sequence_number⟩

/-! ### The cyclic messaging ring of the performance notebook
(spec section 8, scenario 2): `N` objects in a ring; every object's
pre-run callback schedules one event to its forward neighbor at delay
1, and every handler reschedules the same way. -/

/-- The `InitMsg` message of the cyclical-messaging performance test. -/
def ringMsg : EventMessage := mkMessage "InitMsg" [] []

/-- The forward neighbor of the ring object whose index is stored in
its local state. -/
def ringNext (names : List String) (st : List Int) : String :=
  names.getD (((st.headD 0).toNat + 1) % names.length) ""

/-- The ring handler: schedule the same event for the next object in
the ring one time unit in the future. -/
def ringHandler (names : List String) : HandlerFn :=
  fun st _t _e => (st, [⟨.delay 1, ringNext names st, ringMsg⟩])

/-- Modelled from the spec: the `CyclicalMessagesSimulationObject`
class of the performance notebook: one string-registered handler for
`InitMsg` that schedules the same event for the next object in the
ring one time unit in the future; the pre-run callback does the
same. -/
def ringCls (names : List String) : SimObjClass where
  event_handlers := [("InitMsg", .byName "handle_event")]
  methods := [("handle_event", ringHandler names)]
  batch_handler := none
  messages_sent := ["InitMsg"]
  init_before_run :=
    fun st _n => (st, [⟨.delay 1, ringNext names st, ringMsg⟩])

/-- The `i`-th ring object; its local state records its index. -/
def ringObj (names : List String) (i : Nat) : SimObj :=
  ⟨names.getD i "", 0, ringCls names, [(i : Int)]⟩

/-- The ring of simulation objects, in registration order. -/
def ringObjs (names : List String) : List SimObj :=
  (List.range names.length).map (ringObj names)

/-- A simulator holding the ring model. -/
def ringSim (names : List String) (wall : Int) : Simulator :=
  ⟨mkCore (ringObjs names) none, wall⟩

/-- The four object names of the notebook's smallest configuration. -/
def names4 : List String :=
  ["sim_obj_0", "sim_obj_1", "sim_obj_2", "sim_obj_3"]

/-! ### The stop-condition scenario (spec section 8, scenario 5):
a ring of two objects passing one token at delay 1; each handler
increments a counter and the stop condition fires once the counter
reaches 3. -/

/-- The token message of the stop-condition scenario. -/
def tokMsg : EventMessage := mkMessage "Tick" [] []

/-- Modelled from the spec: a two-object token ring whose handler
increments the object's counter (local state `[counter, index]`) and
forwards the token; only the first object sends an initial event. -/
def stopRingCls (names : List String) (sendsInit : Bool) : SimObjClass where
  event_handlers := [("Tick", .byFn (fun st _t _e =>
    ([st.headD 0 + 1, st.getD 1 0],
      [⟨.delay 1,
        names.getD (((st.getD 1 0).toNat + 1) % names.length) "",
        tokMsg⟩])))]
  methods := []
  batch_handler := none
  messages_sent := ["Tick"]
  init_before_run := fun st _n =>
    (st, if sendsInit then
      [⟨.delay 1,
        names.getD (((st.getD 1 0).toNat + 1) % names.length) "",
        tokMsg⟩]
    else [])

/-- An object of the stop-condition ring. -/
def stopObj (names : List String) (i : Nat) (sendsInit : Bool) : SimObj :=
  ⟨names.getD i "", 0, stopRingCls names sendsInit, [0, (i : Int)]⟩

/-- The two object names of the stop-condition scenario. -/
def stopNames : List String := ["A", "B"]

/-- The shared counter read by the stop condition: the sum of the
per-object counters. -/
def counterSum (sts : List (String × List Int)) : Int :=
  (sts.map (fun p => p.2.headD 0)).sum

/-- The stop-condition scenario simulator: `run(100)` with a stop
condition that fires once the shared counter reaches 3. -/
def stopSim : Simulator :=
  ⟨mkCore [stopObj stopNames 0 true, stopObj stopNames 1 false]
    (some (fun sts => counterSum sts ≥ 3)), 0⟩

/-- The stop-condition scenario run. -/
def c4run : Option RunResult := initAndRun 200 stopSim 100

/-! ### The message-identity scenario (for the copy-versus-move
question): a sender schedules one message for a receiver whose handler
records the identity and the payload of the message it is given. -/

/-- The message the sender constructs: one field `x` with value 42,
identity 0. -/
def c7msg : EventMessage := mkMessage "Val" ["x"] [42]

/-- A receiver whose handler stores the received message's identity
and first payload value into its local state. -/
def c7recvCls : SimObjClass where
  event_handlers := [("Val", .byFn (fun _st _t e =>
    ([(e.message.msg_id : Int), e.message.field_values.headD 0], [])))]
  methods := []
  batch_handler := none
  messages_sent := []
  init_before_run := fun st _n => (st, [])

/-- A sender whose pre-run callback sends `c7msg` to the receiver at
delay 1. -/
def c7sendCls : SimObjClass where
  event_handlers := [("Val", .byFn (fun st _t _e => (st, [])))]
  methods := []
  batch_handler := none
  messages_sent := ["Val"]
  init_before_run := fun st _n => (st, [⟨.delay 1, "recv", c7msg⟩])

/-- The message-identity scenario simulator. -/
def c7Sim : Simulator :=
  ⟨mkCore [⟨"send", 0, c7sendCls, []⟩, ⟨"recv", 0, c7recvCls, []⟩] none, 0⟩

/-- The object states observed after the message-identity run. -/
def c7observed : Option (List (String × List Int)) :=
  (initAndRun 10 c7Sim 5).map (fun r => objStates r.final.objects)

/-- The receiver's state after the message-identity run: the identity
and the payload of the message its handler was given. -/
def c7recvState : List Int :=
  match initAndRun 10 c7Sim 5 with
  | some r =>
    match findObj r.final.objects "recv" with
    | some o => o.state
    | none => []
  | none => []

/-! ### The empty-schedule scenario: one object that schedules no
initial event, so the heap is empty when `run` is called. -/

/-- A class that can handle `Tick` but never schedules anything. -/
def c8Cls : SimObjClass where
  event_handlers := [("Tick", .byFn (fun st _t _e => (st, [])))]
  methods := []
  batch_handler := none
  messages_sent := []
  init_before_run := fun st _n => (st, [])

/-- The empty-schedule simulator. -/
def c8Sim : Simulator := ⟨mkCore [⟨"only", 0, c8Cls, []⟩] none, 0⟩

/-- The empty-schedule run. -/
def c8run : Option RunResult := initAndRun 5 c8Sim 100

/-! ### Observables used to reason about the ring run -/

/-- The signature of a pending event: its receive time and its
receiver. -/
def evSig (e : Event) : Int × String := (e.receive_time, e.receiver)

/-- The signatures of one time layer of the ring: one event at time
`t` for each listed object index. -/
def layerSigs (names : List String) (t : Int) (idxs : List Nat) :
    List (Int × String) :=
  idxs.map (fun i => (t, names.getD i ""))

/-- The ring predecessor of an index (inverse of `(i + 1) % N`). -/
def ringPred (N j : Nat) : Nat := (j + N - 1) % N

/-- The run-loop invariant of the ring model at layer time `t`:
the objects are the ring, there is no stop condition, the heap is in
key order and consists of one time-`t` event for each index in `R`
plus one time-`t + 1` event for each index in `D`, every pending
message is an `InitMsg`, and `R` together with the predecessors of
`D` enumerates the whole ring. -/
def ringInv (names : List String) (t : Int) (R D : List Nat)
    (s : CoreState) : Prop :=
  s.objects = ringObjs names ∧
  s.stop_condition = none ∧
  List.Sorted (evLe s.objects) s.event_heap ∧
  (s.event_heap.map evSig).Perm
    (layerSigs names t R ++ layerSigs names (t + 1) D) ∧
  (∀ e ∈ s.event_heap, e.message.variant = "InitMsg") ∧
  R.Nodup ∧ (∀ i ∈ R, i < names.length) ∧
  (∀ j ∈ D, j < names.length) ∧
  (R ++ D.map (ringPred names.length)).Perm (List.range names.length)

/-! ### Concrete inputs for the remaining witnesses -/

/-- A minimal class with a per-event handler for `Ping` and no batch
handler. -/
def c6cls : SimObjClass where
  event_handlers := [("Ping", .byFn (fun st _t _e => (st, [])))]
  methods := []
  batch_handler := none
  messages_sent := ["Ping"]
  init_before_run := fun st _n => (st, [])

/-- Three registered objects `A`, `B`, `C`. -/
def c6objs : List SimObj :=
  [⟨"A", 0, c6cls, []⟩, ⟨"B", 0, c6cls, []⟩, ⟨"C", 0, c6cls, []⟩]

/-- A core at time 5 with the three objects. -/
def c6s : CoreState := ⟨5, [], c6objs, 10, none⟩

/-- An event from `B` to `C` at time 5. -/
def c6eB : Event := ⟨0, 5, "B", "C", mkMessage "Ping" [] [], 1⟩

/-- An event from `A` to `C` at time 5. -/
def c6eA : Event := ⟨0, 5, "A", "C", mkMessage "Ping" [] [], 0⟩

/-- A frontier of two simultaneous events at `C`, deliberately given
with `B`'s event first. -/
def c6frontier : List Event := [c6eB, c6eA]

/-- The expected final core of the frontier dispatch. -/
def c6sOut : CoreState := ⟨5, [], c6objs, 10, none⟩

/-- The expected invocation log: `A`'s event before `B`'s. -/
def c6entries : List LogEntry := [logEntryOf c6eA, logEntryOf c6eB]

/-- A handler used to compare the two registration forms. -/
def c9handler : HandlerFn := fun st _t _e => (st.map (· + 1), [])

/-- A class registering the `Go` handler by method name. -/
def c9clsByName : SimObjClass where
  event_handlers := [("Go", .byName "h")]
  methods := [("h", c9handler)]
  batch_handler := none
  messages_sent := []
  init_before_run := fun st _n => (st, [])

/-- The same class registering the `Go` handler by the method object
itself. -/
def c9clsByFn : SimObjClass where
  event_handlers := [("Go", .byFn c9handler)]
  methods := [("h", c9handler)]
  batch_handler := none
  messages_sent := []
  init_before_run := fun st _n => (st, [])

/-- An event carrying a `Go` message. -/
def c9event : Event := ⟨0, 1, "X", "Y", mkMessage "Go" [] [], 0⟩

/-- The expected core after one successful scheduling call from `A`
to `C` at time 6 on `c6s`. -/
def c7wOut : CoreState :=
  ⟨5, [⟨5, 6, "A", "C", deepCopy (mkMessage "Ping" [] []) 11, 10⟩],
    c6objs, 11, none⟩

/-- A ready core state of a two-object ring, used as a concrete
well-formed run start. -/
def c1state : CoreState :=
  match initSim (ringSim ["a", "b"] 0).core with
  | .ok c => c
  | .error _ => mkCore [] none

/-! ## Theorems -/

/-- C5: whenever `send_event_at(t, receiver, message)` is called with
`t` strictly less than the simulator's `current_time`, it raises the
`PastScheduling` error synchronously and the simulator state — in
particular the event heap — is returned unchanged, so no event is
inserted. -/
theorem send_event_at_past_is_error (s : CoreState) (senderName : String)
    (senderCls : SimObjClass) (t : Int) (recvName : String)
    (m : EventMessage) (h : t < s.current_time) :
    sendEventAtTracked s senderName senderCls t recvName m =
      (s, some (.PastScheduling s.current_time t)) := by
  unfold sendEventAtTracked scheduleEvent
  rw [if_pos h]

/-- Witness for C5 at a concrete input: scheduling at time 3 while the
clock is at 5. -/
theorem send_event_at_past_is_error_witness :
    (3 : Int) < c6s.current_time ∧
    sendEventAtTracked c6s "A" c6cls 3 "C" (mkMessage "Ping" [] []) =
      (c6s, some (.PastScheduling c6s.current_time 3)) :=
  ⟨by decide,
    send_event_at_past_is_error c6s "A" c6cls 3 "C"
      (mkMessage "Ping" [] []) (by decide)⟩

/-- C2: two executions of `initialize(); run(T)` on independent
simulator instances with the same core — the same initial object set,
initial events, sequence counter and stop condition — produce
identical ordered logs of
`(receive_time, receiver, sender, sequence_number, variant)` tuples,
and identical run summaries; the per-run metadata (wall-clock time)
cannot influence the event sequence. -/
theorem run_log_determined_by_core (fuel : Nat) (max_time : Int)
    (s1 s2 : Simulator) (h : s1.core = s2.core) :
    (initAndRun fuel s1 max_time).map (fun r => r.log) =
      (initAndRun fuel s2 max_time).map (fun r => r.log) ∧
    (initAndRun fuel s1 max_time).map
        (fun r => (r.num_events, r.final_sim_time, r.termination_reason)) =
      (initAndRun fuel s2 max_time).map
        (fun r => (r.num_events, r.final_sim_time, r.termination_reason)) := by
  unfold initAndRun
  rw [h]
  exact ⟨rfl, rfl⟩

/-- Witness for C2: two ring simulators that differ only in their
recorded start wall time produce the same log. -/
theorem run_log_determined_by_core_witness :
    (ringSim names4 0).core = (ringSim names4 17).core ∧
    (initAndRun 50 (ringSim names4 0) 10).map (fun r => r.log) =
      (initAndRun 50 (ringSim names4 17) 10).map (fun r => r.log) :=
  ⟨rfl, (run_log_determined_by_core 50 10 (ringSim names4 0)
    (ringSim names4 17) rfl).1⟩

/-- C9: a message class may be registered in `event_handlers` either
with the handler method object itself or with the handler method's
name as a string; both registrations resolve to the same handler and
an incoming event is dispatched to it identically. -/
theorem handler_registration_forms_equiv (clsA clsB : SimObjClass)
    (v n : String) (f : HandlerFn) (st : List Int) (t : Int) (e : Event)
    (hA : clsA.event_handlers.lookup v = some (.byName n))
    (hAn : clsA.methods.lookup n = some f)
    (hB : clsB.event_handlers.lookup v = some (.byFn f)) :
    handlerFor clsA v = some f ∧ handlerFor clsB v = some f ∧
    (handlerFor clsA v).map (fun g => g st t e) =
      (handlerFor clsB v).map (fun g => g st t e) := by
  refine ⟨?_, ?_, ?_⟩ <;>
    simp [handlerFor, resolveHandler, hA, hB, hAn]

/-- Witness for C9: the string form `(Go, "h")` and the function form
`(Go, h)` resolve and invoke identically on a concrete event. -/
theorem handler_registration_forms_equiv_witness :
    c9clsByName.event_handlers.lookup "Go" = some (.byName "h") ∧
    c9clsByName.methods.lookup "h" = some c9handler ∧
    c9clsByFn.event_handlers.lookup "Go" = some (.byFn c9handler) ∧
    (handlerFor c9clsByName "Go" = some c9handler ∧
      handlerFor c9clsByFn "Go" = some c9handler ∧
      (handlerFor c9clsByName "Go").map (fun g => g [1] 0 c9event) =
        (handlerFor c9clsByFn "Go").map (fun g => g [1] 0 c9event)) :=
  ⟨rfl, rfl, rfl,
    handler_registration_forms_equiv c9clsByName c9clsByFn "Go" "h"
      c9handler [1] 0 c9event rfl rfl rfl⟩

/-- Positional lookup in a zipped field list: with distinct field
names, looking up the `i`-th name finds the `i`-th value. -/
theorem lookup_zip_getD :
    ∀ (names : List String) (args : List Int) (i : Nat),
      i < names.length → i < args.length → names.Nodup →
      (names.zip args).lookup (names.getD i "") = some (args.getD i 0) := by
  intro names
  induction names with
  | nil => intro args i hi _ _; exact absurd hi (by simp)
  | cons nm rest ih =>
    intro args i hi hi' hnd
    cases args with
    | nil => exact absurd hi' (by simp)
    | cons a as =>
      cases i with
      | zero => simp [List.lookup]
      | succ k =>
        have hk : k < rest.length := by
          simpa using hi
        have hk' : k < as.length := by
          simpa using hi'
        have hne : rest.getD k "" ≠ nm := by
          intro hcontra
          have hmem : rest.getD k "" ∈ rest := by
            rw [List.getD_eq_getElem?_getD, List.getElem?_eq_getElem hk]
            exact List.getElem_mem hk
          rw [hcontra] at hmem
          exact (List.nodup_cons.mp hnd).1 hmem
        have hbeq : (rest.getD k "" == nm) = false := by
          simpa using hne
        simp only [List.zip, List.zipWith, List.getD_cons_succ, List.lookup,
          hbeq]
        exact ih as k hk hk' (List.nodup_cons.mp hnd).2

/-- C10: for an `EventMessage` class declaring
`msg_field_names = [f1, …, fk]`, construction with `k` positional
arguments assigns the `i`-th argument to attribute `fi` in order, and
the value-preserving deep copy delivered to the receiving handler
reads back exactly those values. -/
theorem msg_fields_positional (v : String) (names : List String)
    (args : List Int) (fresh i : Nat) (hi : i < names.length)
    (hlen : names.length = args.length) (hnd : names.Nodup) :
    getField (mkMessage v names args) (names.getD i "") =
      some (args.getD i 0) ∧
    getField (deepCopy (mkMessage v names args) fresh) (names.getD i "") =
      some (args.getD i 0) := by
  have h := lookup_zip_getD names args i hi (hlen ▸ hi) hnd
  exact ⟨h, h⟩

/-- Witness for C10 on a two-field message. -/
theorem msg_fields_positional_witness :
    (1 : Nat) < (["x", "y"] : List String).length ∧
    (["x", "y"] : List String).length = ([7, 9] : List Int).length ∧
    (["x", "y"] : List String).Nodup ∧
    (getField (mkMessage "M" ["x", "y"] [7, 9]) "y" = some 9 ∧
      getField (deepCopy (mkMessage "M" ["x", "y"] [7, 9]) 5) "y" = some 9) :=
  ⟨by decide, by decide, by decide,
    msg_fields_positional "M" ["x", "y"] [7, 9] 5 1 (by decide) (by decide)
      (by decide)⟩

/-- C7 counterexample: in a concrete run the receiving handler
observes a message whose identity (1) differs from the identity (0)
of the message the sender constructed, while the payload value 42 is
preserved: the core delivered a deep copy, not the very message
object. -/
theorem message_copied_not_moved :
    c7recvState = [1, 42] ∧ c7msg.msg_id = 0 ∧
    c7msg.field_values = [42] ∧
    c7recvState.headD 0 ≠ ((c7msg.msg_id : Nat) : Int) := by
  refine ⟨by decide, rfl, rfl, by decide⟩

/-- C7 (amended): for every successful `send_event` call the event
entered into the heap carries a message that is value-equal to the
message the sender constructed but has a fresh identity: the core
deep-copies the message between sending and delivery and never
mutates its value. -/
theorem send_copies_message (s : CoreState) (sn : String)
    (scls : SimObjClass) (rt : Int) (rn : String) (m : EventMessage)
    (s' : CoreState)
    (h : scheduleEvent s sn scls rt rn m = .ok s') :
    s'.event_heap.Perm (schedEv s sn rt rn m :: s.event_heap) ∧
    msgValue (schedEv s sn rt rn m).message = msgValue m ∧
    (schedEv s sn rt rn m).message.msg_id = s.next_sequence_number + 1 ∧
    (m.msg_id = 0 → (schedEv s sn rt rn m).message.msg_id ≠ m.msg_id) := by
  unfold scheduleEvent at h
  split at h
  · exact absurd h (by simp)
  · split at h
    · split at h
      · exact absurd h (by simp)
      · split at h
        · have hs : s' = { s with
              event_heap := heapPush s.objects (schedEv s sn rt rn m)
                s.event_heap,
              next_sequence_number := s.next_sequence_number + 1 } := by
            cases h
            rfl
          refine ⟨?_, rfl, rfl, ?_⟩
          · rw [hs]
            exact List.perm_orderedInsert (evLe s.objects) _ _
          · intro h0
            simp [schedEv, deepCopy, h0]
        · exact absurd h (by simp)
    · exact absurd h (by simp)

/-- Witness for C7 at a concrete successful send from `A` to `C`. -/
theorem send_copies_message_witness :
    scheduleEvent c6s "A" c6cls 6 "C" (mkMessage "Ping" [] []) =
      .ok c7wOut ∧
    (c7wOut.event_heap.Perm
        (schedEv c6s "A" 6 "C" (mkMessage "Ping" [] []) ::
          c6s.event_heap) ∧
      msgValue (schedEv c6s "A" 6 "C" (mkMessage "Ping" [] [])).message =
        msgValue (mkMessage "Ping" [] [])) := by
  have hok : scheduleEvent c6s "A" c6cls 6 "C" (mkMessage "Ping" [] []) =
      .ok c7wOut := rfl
  have hmain := send_copies_message c6s "A" c6cls 6 "C"
    (mkMessage "Ping" [] []) c7wOut hok
  exact ⟨hok, hmain.1, hmain.2.1⟩

/-- C8 counterexample: with no initial event scheduled, `run` does not
fail: it returns a normal run summary with termination reason
`no_events` and zero events. -/
theorem empty_schedule_terminates_normally :
    c8run.map (fun r => r.termination_reason) =
      some TerminationReason.no_events ∧
    c8run.map (fun r => r.num_events) = some 0 := by
  exact ⟨by decide, by decide⟩

/-- C8 (amended): if the event heap is empty when `run` is called, the
run returns a normal summary immediately: termination reason
`no_events`, zero events dispatched, and the simulation time is left
where it was. -/
theorem run_with_empty_heap_no_events (fuel : Nat) (s : CoreState)
    (mt : Int) (hf : 1 ≤ fuel) (hh : s.event_heap = []) :
    simulate fuel s mt = ⟨s, 0, 0, 0, [], .no_events, s.current_time⟩ := by
  cases fuel with
  | zero => exact absurd hf (by simp)
  | succ n =>
    unfold simulate runLoop
    rw [hh]

/-- Witness for C8 at the concrete empty-schedule core. -/
theorem run_with_empty_heap_no_events_witness :
    (1 : Nat) ≤ 5 ∧ (mkCore [⟨"only", 0, c8Cls, []⟩] none).event_heap = [] ∧
    simulate 5 (mkCore [⟨"only", 0, c8Cls, []⟩] none) 100 =
      ⟨mkCore [⟨"only", 0, c8Cls, []⟩] none, 0, 0, 0, [],
        .no_events, (mkCore [⟨"only", 0, c8Cls, []⟩] none).current_time⟩ :=
  ⟨by decide, rfl,
    run_with_empty_heap_no_events 5 (mkCore [⟨"only", 0, c8Cls, []⟩] none)
      100 (by decide) rfl⟩

/-- Arithmetic step used to thread the stop-evaluation bound through
one dispatched frontier. -/
theorem bound_step {R : RunResult} {A : RunAcc} (acc : RunAcc)
    (h1 : R.stop_evals + A.num_frontiers ≤ R.num_frontiers + A.stop_evals + 1)
    (h2 : A.num_frontiers = acc.num_frontiers + 1)
    (h3 : A.stop_evals ≤ acc.stop_evals + 1) :
    R.stop_evals + acc.num_frontiers ≤
      R.num_frontiers + acc.stop_evals + 1 := by
  omega

/-- Each run-loop iteration consults the stop condition at most once,
and only at a frontier boundary: the number of stop-condition
evaluations never exceeds the number of dispatched frontiers plus
one. -/
theorem runLoop_evals_le (fuel : Nat) :
    ∀ (s : CoreState) (mt : Int) (acc : RunAcc),
      (runLoop fuel s mt acc).stop_evals + acc.num_frontiers ≤
        (runLoop fuel s mt acc).num_frontiers + acc.stop_evals + 1 := by
  induction fuel with
  | zero => intro s mt acc; simp [runLoop]; omega
  | succ n ih =>
    intro s mt acc
    rw [runLoop]
    cases hh : s.event_heap with
    | nil => simp; omega
    | cons e tail =>
      by_cases hmt : mt < e.receive_time
      · simp [hmt]; omega
      · simp only [hmt, if_false]
        by_cases hstop : stopNow s
        · simp only [hstop, if_true]
          cases hsc : s.stop_condition <;> simp [hsc] <;> omega
        · simp only [hstop, if_false]
          cases hsc : s.stop_condition with
          | none =>
            simp only [hsc, Option.isSome_none, Bool.false_eq_true,
              if_false, Nat.add_zero]
            split
            · simp; omega
            · exact bound_step acc (ih _ mt _) rfl (Nat.le_succ _)
          | some p =>
            simp [hsc]
            split
            · simp; omega
            · exact bound_step acc (ih _ mt _) rfl (Nat.le_refl _)

/-- C4: the stop condition is evaluated at most once per frontier
boundary, and it is consulted before `current_time` is advanced to the
next event time: in the concrete two-object ring with a shared counter
and stop threshold 3, `run(100)` halts with termination reason
`stop_condition`, `num_events = 3`, and `final_sim_time = 3` — the
last dispatched time, not the time of the unreached frontier — with
exactly 4 = 3 + 1 stop evaluations over 3 frontier boundaries. -/
theorem stop_condition_boundary :
    (∀ (fuel : Nat) (s : CoreState) (mt : Int),
      (simulate fuel s mt).stop_evals ≤
        (simulate fuel s mt).num_frontiers + 1) ∧
    c4run.map (fun r => r.num_events) = some 3 ∧
    c4run.map (fun r => r.final_sim_time) = some 3 ∧
    c4run.map (fun r => r.termination_reason) =
      some TerminationReason.stop_condition ∧
    c4run.map (fun r => r.num_frontiers) = some 3 ∧
    c4run.map (fun r => r.stop_evals) = some 4 := by
  refine ⟨?_, by decide, by decide, by decide, by decide, by decide⟩
  intro fuel s mt
  have h := runLoop_evals_le fuel s mt ⟨0, 0, 0, []⟩
  simpa [simulate] using h

/-- On success, per-event dispatch logs exactly the events it was
given, in the order it was given them. -/
theorem dispatchEvents_ok_log :
    ∀ (evs : List Event) (s s' : CoreState) (entries : List LogEntry),
      dispatchEvents s evs = .ok (s', entries) →
      entries = evs.map logEntryOf := by
  intro evs
  induction evs with
  | nil =>
    intro s s' entries h
    simp only [dispatchEvents] at h
    cases h
    rfl
  | cons e rest ih =>
    intro s s' entries h
    rw [dispatchEvents] at h
    split at h
    · cases h
    · split at h
      · cases h
      · simp only [] at h
        split at h
        · cases h
        · split at h
          · cases h
          · rename_i s3 entries3 heq
            cases h
            simp only [List.map]
            exact congrArg (logEntryOf e :: ·) (ih _ _ _ heq)

/-- C6: simultaneous events delivered to a single receiver that has no
batch handler invoke the per-event handlers in exactly the order given
by the key `(sender.priority_key, sender.name, sequence_number)`: the
invocation log is the frontier sorted by that key, the sorted frontier
is ordered by the key, and it is a permutation of the frontier. -/
theorem frontier_dispatch_order (s : CoreState) (frontier : List Event)
    (e : Event) (rest : List Event) (obj : SimObj) (s' : CoreState)
    (entries : List LogEntry)
    (hfr : frontier = e :: rest)
    (hobj : findObj s.objects e.receiver = some obj)
    (hb : obj.cls.batch_handler = none)
    (hok : dispatchFrontier s frontier = .ok (s', entries)) :
    entries = (sortFrontier s.objects frontier).map logEntryOf ∧
    List.Sorted (senderLe s.objects) (sortFrontier s.objects frontier) ∧
    (sortFrontier s.objects frontier).Perm frontier := by
  subst hfr
  unfold dispatchFrontier at hok
  simp only [] at hok
  rw [hobj] at hok
  simp only [] at hok
  rw [hb] at hok
  simp only [] at hok
  exact ⟨dispatchEvents_ok_log _ _ _ _ hok,
    List.sorted_insertionSort _ _,
    List.perm_insertionSort _ _⟩

/-- Witness for C6: two simultaneous events at `C`, given with `B`'s
event first, are dispatched with `A`'s event first. -/
theorem frontier_dispatch_order_witness :
    c6frontier = c6eB :: [c6eA] ∧
    findObj c6s.objects c6eB.receiver = some ⟨"C", 0, c6cls, []⟩ ∧
    (SimObj.mk "C" 0 c6cls []).cls.batch_handler = none ∧
    dispatchFrontier c6s c6frontier = .ok (c6sOut, c6entries) ∧
    (c6entries = (sortFrontier c6s.objects c6frontier).map logEntryOf ∧
      List.Sorted (senderLe c6s.objects) (sortFrontier c6s.objects c6frontier) ∧
      (sortFrontier c6s.objects c6frontier).Perm c6frontier) := by
  have hfr : c6frontier = c6eB :: [c6eA] := rfl
  have hobj : findObj c6s.objects c6eB.receiver = some ⟨"C", 0, c6cls, []⟩ :=
    rfl
  have hb : (SimObj.mk "C" 0 c6cls []).cls.batch_handler = none := rfl
  have hok : dispatchFrontier c6s c6frontier = .ok (c6sOut, c6entries) := by
    with_unfolding_all rfl
  exact ⟨hfr, hobj, hb, hok,
    frontier_dispatch_order c6s c6frontier c6eB [c6eA] ⟨"C", 0, c6cls, []⟩
      c6sOut c6entries hfr hobj hb hok⟩

/-! ### Preservation lemmas for the heap order and the time lower
bound -/

/-- The first component of the global key is monotone along the heap
order. -/
theorem keyLe4_fst_le {a b : Int × Int × String × Nat} (h : keyLe4 a b) :
    a.1 ≤ b.1 := by
  rcases h with h | ⟨h, _⟩
  · exact le_of_lt h
  · exact le_of_eq h

/-- The heap order only ever moves receive times forward. -/
theorem evLe_time_le {objs : List SimObj} {a b : Event}
    (h : evLe objs a b) : a.receive_time ≤ b.receive_time :=
  keyLe4_fst_le h

/-- `priorityOf` only depends on the names and priority keys of the
objects. -/
theorem priorityOf_congr {o1 o2 : List SimObj}
    (h : objsShape o1 = objsShape o2) (n : String) :
    priorityOf o1 n = priorityOf o2 n := by
  induction o1 generalizing o2 with
  | nil =>
    cases o2 with
    | nil => rfl
    | cons b l2 => exact absurd h (by simp [objsShape])
  | cons a l1 ih =>
    cases o2 with
    | nil => exact absurd h (by simp [objsShape])
    | cons b l2 =>
      simp only [objsShape, List.map, List.cons.injEq, Prod.mk.injEq] at h
      obtain ⟨⟨hn, hp⟩, htl⟩ := h
      unfold priorityOf findObj
      simp only [List.find?]
      rw [hn]
      cases hb : b.name == n with
      | true => exact hp
      | false => exact ih (by simpa [objsShape] using htl)

/-- The heap order only depends on the shape of the object list. -/
theorem evLe_congr {o1 o2 : List SimObj}
    (h : objsShape o1 = objsShape o2) : evLe o1 = evLe o2 := by
  funext a b
  unfold evLe evKey
  rw [priorityOf_congr h a.receiver, priorityOf_congr h b.receiver]

/-- Updating an object's local state does not change the shape of the
object list. -/
theorem objsShape_update (objs : List SimObj) (n : String) (st : List Int) :
    objsShape (updateObjState objs n st) = objsShape objs := by
  unfold objsShape updateObjState
  rw [List.map_map]
  apply List.map_congr_left
  intro o _
  by_cases h : o.name = n <;> simp [h]

/-- Success of the validated scheduling path, unpacked. -/
theorem scheduleEvent_ok_inv {s : CoreState} {sn : String}
    {scls : SimObjClass} {rt : Int} {rn : String} {m : EventMessage}
    {s' : CoreState} (h : scheduleEvent s sn scls rt rn m = .ok s') :
    s'.current_time = s.current_time ∧ s'.objects = s.objects ∧
    s'.event_heap = heapPush s.objects (schedEv s sn rt rn m) s.event_heap ∧
    s.current_time ≤ rt := by
  unfold scheduleEvent at h
  split at h
  · cases h
  · rename_i hpast
    split at h
    · split at h
      · cases h
      · split at h
        · cases h
          exact ⟨rfl, rfl, rfl, not_lt.mp hpast⟩
        · cases h
    · cases h

/-- Membership in the heap after a push. -/
theorem heapPush_mem {objs : List SimObj} {ev x : Event} {h : List Event} :
    x ∈ heapPush objs ev h ↔ x = ev ∨ x ∈ h := by
  unfold heapPush
  exact List.mem_orderedInsert (evLe objs)

/-- A push preserves the heap order. -/
theorem heapPush_sorted {objs : List SimObj} {ev : Event} {h : List Event}
    (hs : List.Sorted (evLe objs) h) :
    List.Sorted (evLe objs) (heapPush objs ev h) :=
  hs.orderedInsert ev h

/-- A successful scheduling call preserves the core invariant. -/
theorem scheduleEvent_coreOk {s : CoreState} {sn : String}
    {scls : SimObjClass} {rt : Int} {rn : String} {m : EventMessage}
    {s' : CoreState} (hok : coreOk s)
    (h : scheduleEvent s sn scls rt rn m = .ok s') : coreOk s' := by
  obtain ⟨hc, ho, hh, hrt⟩ := scheduleEvent_ok_inv h
  obtain ⟨hsort, htimes⟩ := hok
  constructor
  · rw [ho, hh]
    exact heapPush_sorted hsort
  · intro x hx
    rw [hh] at hx
    rcases heapPush_mem.mp hx with hx | hx
    · rw [hc, hx]
      exact hrt
    · rw [hc]
      exact htimes x hx

/-- A single staged request preserves the core invariant, the clock
and the object list. -/
theorem sendOne_inv {s : CoreState} {sn : String} {scls : SimObjClass}
    {r : SendReq} {s' : CoreState} (hok : coreOk s)
    (h : sendOne s sn scls r = .ok s') :
    coreOk s' ∧ s'.current_time = s.current_time ∧
    s'.objects = s.objects := by
  unfold sendOne at h
  split at h
  · split at h
    · cases h
    · obtain ⟨hc, ho, _, _⟩ := scheduleEvent_ok_inv h
      exact ⟨scheduleEvent_coreOk hok h, hc, ho⟩
  · obtain ⟨hc, ho, _, _⟩ := scheduleEvent_ok_inv h
    exact ⟨scheduleEvent_coreOk hok h, hc, ho⟩

/-- Staging a handler's requests preserves the core invariant, the
clock and the object list. -/
theorem processSendReqs_inv {sn : String} {scls : SimObjClass} :
    ∀ {reqs : List SendReq} {s s' : CoreState}, coreOk s →
      processSendReqs s sn scls reqs = .ok s' →
      coreOk s' ∧ s'.current_time = s.current_time ∧
      s'.objects = s.objects := by
  intro reqs
  induction reqs with
  | nil =>
    intro s s' hok h
    cases h
    exact ⟨hok, rfl, rfl⟩
  | cons r rest ih =>
    intro s s' hok h
    rw [processSendReqs] at h
    split at h
    · cases h
    · rename_i s1 heq
      obtain ⟨hok1, hc1, ho1⟩ := sendOne_inv hok heq
      obtain ⟨hok2, hc2, ho2⟩ := ih hok1 h
      exact ⟨hok2, hc2.trans hc1, ho2.trans ho1⟩

/-- Updating an object's local state preserves the core invariant. -/
theorem coreOk_update (s : CoreState) (n : String) (st : List Int)
    (hok : coreOk s) :
    coreOk { s with objects := updateObjState s.objects n st } := by
  obtain ⟨hsort, htimes⟩ := hok
  constructor
  · simpa [evLe_congr (objsShape_update s.objects n st)] using hsort
  · exact htimes

/-- Per-event dispatch preserves the core invariant and the clock. -/
theorem dispatchEvents_inv :
    ∀ {evs : List Event} {s s' : CoreState} {entries : List LogEntry},
      coreOk s → dispatchEvents s evs = .ok (s', entries) →
      coreOk s' ∧ s'.current_time = s.current_time := by
  intro evs
  induction evs with
  | nil =>
    intro s s' entries hok h
    cases h
    exact ⟨hok, rfl⟩
  | cons e rest ih =>
    intro s s' entries hok h
    rw [dispatchEvents] at h
    split at h
    · cases h
    · rename_i obj hfind
      split at h
      · cases h
      · rename_i f hhandler
        simp only [] at h
        split at h
        · cases h
        · rename_i s2 heq
          split at h
          · cases h
          · rename_i s3 entries3 heq3
            cases h
            have hok1 :=
              coreOk_update s e.receiver (f obj.state s.current_time e).1 hok
            obtain ⟨hok2, hc2, _⟩ := processSendReqs_inv hok1 heq
            obtain ⟨hok3, hc3⟩ := ih hok2 heq3
            exact ⟨hok3, by rw [hc3, hc2]⟩

/-- Frontier dispatch preserves the core invariant and the clock. -/
theorem dispatchFrontier_inv {s : CoreState} {fr : List Event}
    {s' : CoreState} {entries : List LogEntry} (hok : coreOk s)
    (h : dispatchFrontier s fr = .ok (s', entries)) :
    coreOk s' ∧ s'.current_time = s.current_time := by
  unfold dispatchFrontier at h
  split at h
  · cases h
    exact ⟨hok, rfl⟩
  · rename_i e rest
    split at h
    · cases h
    · rename_i obj hfind
      split at h
      · rename_i bh hbh
        simp only [] at h
        split at h
        · cases h
        · rename_i s2 heq
          cases h
          have hok1 := coreOk_update s e.receiver
            (bh obj.state s.current_time
              (sortFrontier s.objects (e :: rest))).1 hok
          obtain ⟨hok2, hc2, _⟩ := processSendReqs_inv hok1 heq
          exact ⟨hok2, hc2⟩
      · exact dispatchEvents_inv hok h

/-- Every log entry of a dispatched frontier records an event of the
frontier. -/
theorem dispatchFrontier_entries {s : CoreState} {fr : List Event}
    {s' : CoreState} {entries : List LogEntry}
    (h : dispatchFrontier s fr = .ok (s', entries)) :
    ∀ le ∈ entries, ∃ x ∈ fr, le = logEntryOf x := by
  unfold dispatchFrontier at h
  split at h
  · cases h
    intro le hle
    cases hle
  · rename_i e rest
    split at h
    · cases h
    · rename_i obj hfind
      split at h
      · rename_i bh hbh
        simp only [] at h
        split at h
        · cases h
        · rename_i s2 heq
          cases h
          intro le hle
          obtain ⟨x, hx, rfl⟩ := List.mem_map.mp hle
          have hx' : x ∈ e :: rest := by
            simpa [sortFrontier] using hx
          exact ⟨x, hx', rfl⟩
      · have hlog := dispatchEvents_ok_log _ _ _ _ h
        subst hlog
        intro le hle
        obtain ⟨x, hx, rfl⟩ := List.mem_map.mp hle
        have hx' : x ∈ e :: rest := by
          simpa [sortFrontier] using hx
        exact ⟨x, hx', rfl⟩

/-- Every event of a popped frontier shares the front's receive
time. -/
theorem popFrontier_fst_time {e : Event} {tail : List Event} :
    ∀ x ∈ (popFrontier (e :: tail)).1,
      x.receive_time = e.receive_time := by
  intro x hx
  unfold popFrontier at hx
  rcases List.mem_cons.mp hx with hx | hx
  · rw [hx]
  · have hp := List.mem_takeWhile_imp hx
    simp only [Bool.and_eq_true, beq_iff_eq] at hp
    exact hp.1

/-- Gluing a constant-time block onto a non-decreasing chain. -/
theorem chain_le_glue (c t : Int) (l1 l2 : List Int)
    (h1 : ∀ x ∈ l1, x = t) (hct : c ≤ t)
    (h2 : List.Chain' (· ≤ ·) (t :: l2)) :
    List.Chain' (· ≤ ·) (c :: (l1 ++ l2)) := by
  induction l1 generalizing c with
  | nil =>
    simp only [List.nil_append]
    refine h2.tail.cons' ?_
    intro y hy
    exact le_trans hct ((List.chain'_cons'.mp h2).1 y hy)
  | cons a l1' ih =>
    have ha : a = t := h1 a (List.mem_cons_self a l1')
    simp only [List.cons_append]
    rw [List.chain'_cons]
    refine ⟨?_, ?_⟩
    · rw [ha]
      exact hct
    · rw [ha]
      exact ih t (fun x hx => h1 x (List.mem_cons_of_mem a hx)) (le_refl t)

/-- One dispatched frontier extends the non-decreasing dispatch chain
by a block of equal times and hands the chain on to the remaining
run. -/
theorem mono_step {n : Nat} {s2 : CoreState} {mt : Int} {A acc : RunAcc}
    {entries : List LogEntry} {c t : Int}
    (hA : A.log = acc.log ++ entries)
    (hentry : ∀ le ∈ entries, le.receive_time = t)
    (hct : c ≤ t)
    (hs2 : s2.current_time = t)
    (hok2 : coreOk s2)
    (ih : ∀ (s : CoreState) (mt' : Int) (acc' : RunAcc), coreOk s →
      ∃ Δ, (runLoop n s mt' acc').log = acc'.log ++ Δ ∧
        List.Chain' (· ≤ ·)
          (s.current_time :: Δ.map (fun le => le.receive_time)) ∧
        s.current_time ≤ (runLoop n s mt' acc').final_sim_time) :
    ∃ Δ, (runLoop n s2 mt A).log = acc.log ++ Δ ∧
      List.Chain' (· ≤ ·) (c :: Δ.map (fun le => le.receive_time)) ∧
      c ≤ (runLoop n s2 mt A).final_sim_time := by
  obtain ⟨Δ', h1, h2, h3⟩ := ih s2 mt A hok2
  refine ⟨entries ++ Δ', ?_, ?_, ?_⟩
  · rw [h1, hA, List.append_assoc]
  · rw [List.map_append]
    refine chain_le_glue c t _ _ ?_ hct ?_
    · intro x hx
      obtain ⟨le, hle, rfl⟩ := List.mem_map.mp hx
      exact hentry le hle
    · rw [hs2] at h2
      exact h2
  · calc c ≤ t := hct
      _ = s2.current_time := hs2.symm
      _ ≤ _ := h3

/-- Monotonicity of the run loop: starting from a well-formed core,
the dispatch log is non-decreasing in receive time, starting no
earlier than the current simulation time, and the final simulation
time never lies before the starting time. -/
theorem runLoop_monotone (fuel : Nat) :
    ∀ (s : CoreState) (mt : Int) (acc : RunAcc), coreOk s →
      ∃ Δ, (runLoop fuel s mt acc).log = acc.log ++ Δ ∧
        List.Chain' (· ≤ ·)
          (s.current_time :: Δ.map (fun le => le.receive_time)) ∧
        s.current_time ≤ (runLoop fuel s mt acc).final_sim_time := by
  induction fuel with
  | zero =>
    intro s mt acc hok
    exact ⟨[], by simp [runLoop], by simp, by simp [runLoop]⟩
  | succ n ih =>
    intro s mt acc hok
    rw [runLoop]
    cases hh : s.event_heap with
    | nil => exact ⟨[], by simp, by simp, by simp⟩
    | cons e tail =>
      have hsorted : List.Sorted (evLe s.objects) (e :: tail) := by
        rw [← hh]; exact hok.1
      have hhead : s.current_time ≤ e.receive_time := by
        refine hok.2 e ?_
        rw [hh]
        exact List.mem_cons_self e tail
      by_cases hmt : mt < e.receive_time
      · exact ⟨[], by simp [hmt], by simp, by simp [hmt]⟩
      · simp only [hmt, if_false]
        by_cases hstop : stopNow s
        · exact ⟨[], by simp [hstop], by simp, by simp [hstop]⟩
        · simp only [hstop, Bool.false_eq_true, if_false]
          have hmid : coreOk
              { s with
                current_time := e.receive_time
                event_heap := (popFrontier (e :: tail)).2 } := by
            constructor
            · refine hsorted.sublist ?_
              unfold popFrontier
              exact (List.dropWhile_sublist _).trans
                (List.sublist_cons_self e tail)
            · intro x hx
              have hx' : x ∈ tail := by
                unfold popFrontier at hx
                exact (List.dropWhile_sublist _).mem hx
              exact evLe_time_le (List.rel_of_sorted_cons hsorted x hx')
          split
          · rename_i err heq
            exact ⟨[], by simp, by simp, by simpa using hhead⟩
          · rename_i s2 entries heq
            obtain ⟨hok2, hc2⟩ := dispatchFrontier_inv hmid heq
            refine mono_step rfl ?_ hhead hc2 hok2 ih
            intro le hle
            obtain ⟨x, hx, rfl⟩ := dispatchFrontier_entries heq le hle
            exact popFrontier_fst_time x hx

/-- C1: in every run from a well-formed core (heap in key order, no
pending event before the current time — the invariant `send_event`
enforces), the sequence of dispatched events has non-decreasing
`receive_time`, it starts no earlier than the starting simulation
time, and the final simulation time never lies before the starting
time, so `current_simulation_time` never decreases across dispatch
steps. -/
theorem dispatch_times_monotone (fuel : Nat) (s : CoreState) (mt : Int)
    (h : coreOk s) :
    List.Chain' (· ≤ ·) (s.current_time ::
      (simulate fuel s mt).log.map (fun le => le.receive_time)) ∧
    s.current_time ≤ (simulate fuel s mt).final_sim_time := by
  obtain ⟨Δ, hlog, hchain, hfin⟩ :=
    runLoop_monotone fuel s mt ⟨0, 0, 0, []⟩ h
  refine ⟨?_, hfin⟩
  unfold simulate
  rw [hlog]
  simpa using hchain

/-- Witness for C1: a concrete initialized two-object ring is a
well-formed core, and its run satisfies the monotone-dispatch
property. -/
theorem dispatch_times_monotone_witness :
    coreOk c1state ∧
    (List.Chain' (· ≤ ·) (c1state.current_time ::
        (simulate 10 c1state 3).log.map (fun le => le.receive_time)) ∧
      c1state.current_time ≤ (simulate 10 c1state 3).final_sim_time) :=
  ⟨of_decide_eq_true (by with_unfolding_all rfl),
    dispatch_times_monotone 10 c1state 3
      (of_decide_eq_true (by with_unfolding_all rfl))⟩

/-! ### The cyclic ring: arithmetic of the successor map -/

/-- The ring successor stays in range. -/
theorem ringSucc_lt {N : Nat} (i : Nat) (hN : 1 ≤ N) : (i + 1) % N < N :=
  Nat.mod_lt _ (by omega)

/-- The ring predecessor inverts the ring successor. -/
theorem ringPred_succ {N i : Nat} (hi : i < N) :
    ringPred N ((i + 1) % N) = i := by
  unfold ringPred
  rcases Nat.lt_or_ge (i + 1) N with h | h
  · rw [Nat.mod_eq_of_lt h]
    have h2 : i + 1 + N - 1 = i + N := by omega
    rw [h2, Nat.add_mod_right, Nat.mod_eq_of_lt hi]
  · have hiN : i + 1 = N := by omega
    rw [hiN, Nat.mod_self]
    have h2 : 0 + N - 1 = i := by omega
    rw [h2, Nat.mod_eq_of_lt hi]

/-- The ring successor inverts the ring predecessor. -/
theorem ringSucc_pred {N a : Nat} (ha : a < N) :
    (ringPred N a + 1) % N = a := by
  unfold ringPred
  rcases Nat.eq_zero_or_pos a with h0 | h0
  · subst h0
    have h1 : 0 + N - 1 = N - 1 := by omega
    have h2 : (N - 1) % N = N - 1 := Nat.mod_eq_of_lt (by omega)
    have h3 : N - 1 + 1 = N := by omega
    rw [h1, h2, h3, Nat.mod_self]
  · have h1 : a + N - 1 = a - 1 + N := by omega
    have h2 : (a - 1 + N) % N = a - 1 := by
      rw [Nat.add_mod_right]
      exact Nat.mod_eq_of_lt (by omega)
    have h3 : a - 1 + 1 = a := by omega
    rw [h1, h2, h3, Nat.mod_eq_of_lt ha]

/-- The ring successor is injective below `N`. -/
theorem ringSucc_inj {N i j : Nat} (hi : i < N) (hj : j < N)
    (h : (i + 1) % N = (j + 1) % N) : i = j := by
  have := congrArg (ringPred N) h
  rwa [ringPred_succ hi, ringPred_succ hj] at this

/-- The successor map permutes the ring indices. -/
theorem map_ringSucc_perm {N : Nat} (hN : 1 ≤ N) :
    List.Perm ((List.range N).map (fun i => (i + 1) % N))
      (List.range N) := by
  refine (List.perm_ext_iff_of_nodup ?_ (List.nodup_range N)).mpr ?_
  · refine (List.nodup_range N).map_on ?_
    intro x hx y hy hxy
    exact ringSucc_inj (List.mem_range.mp hx) (List.mem_range.mp hy) hxy
  · intro a
    constructor
    · intro ha
      obtain ⟨i, hi, rfl⟩ := List.mem_map.mp ha
      exact List.mem_range.mpr (ringSucc_lt i hN)
    · intro ha
      have haN := List.mem_range.mp ha
      refine List.mem_map.mpr ⟨ringPred N a, ?_, ringSucc_pred haN⟩
      exact List.mem_range.mpr (Nat.mod_lt _ (by omega))

/-! ### The cyclic ring: object lookup and state update -/

/-- Distinct names have distinct positions. -/
theorem names_getD_inj {names : List String} (hnd : names.Nodup)
    {i j : Nat} (hi : i < names.length) (hj : j < names.length)
    (h : names.getD i "" = names.getD j "") : i = j := by
  rw [List.getD_eq_getElem names "" hi, List.getD_eq_getElem names "" hj]
    at h
  exact (List.Nodup.getElem_inj_iff hnd).mp h

/-- `find?` on a mapped range locates the first index satisfying the
predicate. -/
theorem find?_range'_eq (p : Nat → Bool) :
    ∀ (len s i : Nat), s ≤ i → i < s + len → p i = true →
      (∀ j, s ≤ j → j < i → p j = false) →
      (List.range' s len).find? p = some i := by
  intro len
  induction len with
  | zero => intro s i h1 h2; omega
  | succ k ih =>
    intro s i h1 h2 hp hfirst
    rw [List.range'_succ s k 1, List.find?]
    by_cases hsi : s = i
    · subst hsi
      simp [hp]
    · have hps : p s = false := hfirst s (le_refl s) (by omega)
      simp only [hps]
      exact ih (s + 1) i (by omega) (by omega) hp
        (fun j hj1 hj2 => hfirst j (by omega) hj2)

/-- Looking up the `i`-th ring object by name finds it. -/
theorem find_ringObjs {names : List String} (hnd : names.Nodup)
    {i : Nat} (hi : i < names.length) :
    findObj (ringObjs names) (names.getD i "") =
      some (ringObj names i) := by
  unfold findObj ringObjs
  rw [List.find?_map]
  have hfind : (List.range names.length).find?
      ((fun o => o.name == names.getD i "") ∘ ringObj names) = some i := by
    rw [List.range_eq_range']
    refine find?_range'_eq _ names.length 0 i (by omega) (by omega) ?_ ?_
    · simp [ringObj]
    · intro j hj0 hji
      simp only [Function.comp, ringObj, beq_eq_false_iff_ne, ne_eq]
      intro hcontra
      exact absurd (names_getD_inj hnd (by omega) hi hcontra) (by omega)
  rw [hfind]
  rfl

/-- Re-writing a ring object's state with its own value leaves the
object list unchanged. -/
theorem updateObjState_ring {names : List String} (hnd : names.Nodup)
    {i : Nat} (hi : i < names.length) :
    updateObjState (ringObjs names) (names.getD i "") [(i : Int)] =
      ringObjs names := by
  unfold updateObjState ringObjs
  rw [List.map_map]
  apply List.map_congr_left
  intro j hj
  have hjN : j < names.length := List.mem_range.mp hj
  simp only [Function.comp]
  by_cases hname : (ringObj names j).name = names.getD i ""
  · rw [if_pos hname]
    have hji : j = i := names_getD_inj hnd hjN hi hname
    subst hji
    rfl
  · rw [if_neg hname]

/-- The ring's neighbor computation, on a ring object's state. -/
theorem ringNext_state (names : List String) (i : Nat) :
    ringNext names [(i : Int)] =
      names.getD ((i + 1) % names.length) "" := by
  simp [ringNext]

/-- Scheduling to any ring member succeeds and pushes the expected
event. -/
theorem ring_schedEvent {names : List String} (hnd : names.Nodup)
    {s : CoreState} (sn : String) {i : Nat} (hi : i < names.length)
    (hobj : s.objects = ringObjs names) (rt : Int)
    (hrt : ¬ rt < s.current_time) :
    scheduleEvent s sn (ringCls names) rt (names.getD i "") ringMsg =
      .ok { s with
        event_heap := heapPush s.objects
          (schedEv s sn rt (names.getD i "") ringMsg) s.event_heap,
        next_sequence_number := s.next_sequence_number + 1 } := by
  unfold scheduleEvent
  rw [if_neg hrt]
  have hmem : ringMsg.variant ∈ (ringCls names).messages_sent := by
    simp [ringCls, ringMsg, mkMessage]
  rw [if_pos hmem, hobj, find_ringObjs hnd hi]
  have hhh : hasHandler (ringObj names i).cls ringMsg.variant = true := rfl
  simp only []
  rw [if_pos hhh]
  rfl

/-- The ring handler's single staged request succeeds and pushes the
expected event. -/
theorem ring_sched {names : List String} (hnd : names.Nodup)
    (hN : 1 ≤ names.length) {s : CoreState} (sn : String) {i : Nat}
    (hi : i < names.length) (hobj : s.objects = ringObjs names) :
    processSendReqs s sn (ringCls names)
        [⟨.delay 1, ringNext names [(i : Int)], ringMsg⟩] =
      .ok { s with
        event_heap := heapPush s.objects
          (schedEv s sn (s.current_time + 1)
            (names.getD ((i + 1) % names.length) "") ringMsg)
          s.event_heap,
        next_sequence_number := s.next_sequence_number + 1 } := by
  have hsend : sendOne s sn (ringCls names)
      ⟨.delay 1, ringNext names [(i : Int)], ringMsg⟩ =
      .ok { s with
        event_heap := heapPush s.objects
          (schedEv s sn (s.current_time + 1)
            (names.getD ((i + 1) % names.length) "") ringMsg)
          s.event_heap,
        next_sequence_number := s.next_sequence_number + 1 } := by
    unfold sendOne
    simp only []
    rw [if_neg (by decide : ¬ (1 : Int) < 0), ringNext_state]
    exact ring_schedEvent hnd sn (ringSucc_lt i hN) hobj
      (s.current_time + 1)
      (not_lt.mpr (le_add_of_nonneg_right zero_le_one))
  rw [processSendReqs, hsend]
  simp only []
  rw [processSendReqs]

/-- Dispatching one ring event invokes the ring handler, which
schedules the same event for the forward neighbor one time unit
later. -/
theorem ring_dispatch {names : List String} (hnd : names.Nodup)
    (hN : 1 ≤ names.length) {mid : CoreState} {e : Event} {i : Nat}
    (hi : i < names.length)
    (hobj : mid.objects = ringObjs names)
    (hrecv : e.receiver = names.getD i "")
    (hvar : e.message.variant = "InitMsg") :
    dispatchFrontier mid [e] =
      .ok ({ mid with
        objects := ringObjs names,
        event_heap := heapPush (ringObjs names)
          (schedEv { mid with objects := ringObjs names }
            (names.getD i "") (mid.current_time + 1)
            (names.getD ((i + 1) % names.length) "") ringMsg)
          mid.event_heap,
        next_sequence_number := mid.next_sequence_number + 1 },
        [logEntryOf e]) := by
  unfold dispatchFrontier
  simp only []
  rw [hrecv, hobj, find_ringObjs hnd hi]
  simp only []
  have hbatch : (ringObj names i).cls.batch_handler = none := rfl
  rw [hbatch]
  have hsort : sortFrontier (ringObjs names) [e] = [e] := rfl
  rw [hsort]
  unfold dispatchEvents
  rw [hrecv, hobj, find_ringObjs hnd hi]
  simp only []
  have hhf : handlerFor (ringObj names i).cls e.message.variant =
      some (ringHandler names) := by
    rw [hvar]
    rfl
  rw [hhf]
  simp only []
  have hpr : ringHandler names (ringObj names i).state mid.current_time e =
      ([(i : Int)], [⟨.delay 1, ringNext names [(i : Int)], ringMsg⟩]) :=
    rfl
  rw [hpr]
  simp only []
  rw [updateObjState_ring hnd hi]
  have hcls : (ringObj names i).cls = ringCls names := rfl
  rw [hcls, ring_sched hnd hN (names.getD i "") hi rfl]
  simp only []
  rw [dispatchEvents]

/-- When no other event shares the front's signature, the popped
frontier is exactly the front event. -/
theorem popFrontier_single {e : Event} {rest : List Event}
    (h : ∀ x ∈ rest, evSig x ≠ evSig e) :
    popFrontier (e :: rest) = ([e], rest) := by
  unfold popFrontier
  cases rest with
  | nil => rfl
  | cons r rest' =>
    have hr := h r (List.mem_cons_self r rest')
    have hpred : (r.receive_time == e.receive_time &&
        r.receiver == e.receiver) = false := by
      refine Bool.eq_false_iff.mpr ?_
      intro hcontra
      simp only [Bool.and_eq_true, beq_iff_eq] at hcontra
      exact hr (by simp [evSig, hcontra.1, hcontra.2])
    simp [List.takeWhile_cons, List.dropWhile_cons, hpred]

/-- The head of the heap under the ring invariant: it lies in the
current layer. -/
theorem ring_head {names : List String} (hnd : names.Nodup) {t : Int}
    {R D : List Nat} {s : CoreState} (inv : ringInv names t R D s)
    (hR : R ≠ []) {e : Event} {rest : List Event}
    (hh : s.event_heap = e :: rest) :
    e.receive_time = t ∧ ∃ i ∈ R, e.receiver = names.getD i "" := by
  obtain ⟨hobj, hstop, hsort, hperm, hvar, hndR, hRb, hDb, hbal⟩ := inv
  have hmem : evSig e ∈ layerSigs names t R ++ layerSigs names (t + 1) D :=
    hperm.mem_iff.mp
      (by rw [hh]; exact List.mem_map_of_mem evSig (List.mem_cons_self e rest))
  rcases List.mem_append.mp hmem with hmemt | hmemt1
  · obtain ⟨i, hiR, hsig⟩ := List.mem_map.mp hmemt
    have h1 : t = e.receive_time := congrArg Prod.fst hsig
    have h2 : names.getD i "" = e.receiver := congrArg Prod.snd hsig
    exact ⟨h1.symm, i, hiR, h2.symm⟩
  · exfalso
    obtain ⟨j, hjD, hjsig⟩ := List.mem_map.mp hmemt1
    have het1 : t + 1 = e.receive_time := congrArg Prod.fst hjsig
    obtain ⟨i0, hi0⟩ := List.exists_mem_of_ne_nil R hR
    have hc : (t, names.getD i0 "") ∈ s.event_heap.map evSig :=
      hperm.mem_iff.mpr
        (List.mem_append.mpr (Or.inl (List.mem_map_of_mem _ hi0)))
    obtain ⟨x, hx, hxsig⟩ := List.mem_map.mp hc
    have hxt : x.receive_time = t := congrArg Prod.fst hxsig
    rw [hh] at hx
    rcases List.mem_cons.mp hx with hxe | hxrest
    · subst hxe
      omega
    · have hle : evLe s.objects e x := by
        rw [hh] at hsort
        exact List.rel_of_sorted_cons hsort x hxrest
      have := evLe_time_le hle
      omega

/-- Under the ring invariant, the rest of the heap holds no event
with the head's signature, and its signatures enumerate the remaining
layer, phrased through a permutation split R ~ i :: R'. -/
theorem ring_rest_sig {names : List String} (hnd : names.Nodup) {t : Int}
    {R D : List Nat} {s : CoreState} (inv : ringInv names t R D s)
    {e : Event} {rest : List Event} (hh : s.event_heap = e :: rest)
    {i : Nat} {R' : List Nat} (hRR' : R.Perm (i :: R'))
    (hsig : evSig e = (t, names.getD i "")) :
    (∀ x ∈ rest, evSig x ≠ evSig e) ∧
    (rest.map evSig).Perm
      (layerSigs names t R' ++ layerSigs names (t + 1) D) := by
  obtain ⟨hobj, hstop, hsort, hperm, hvar, hndR, hRb, hDb, hbal⟩ := inv
  rw [hh] at hperm
  simp only [List.map] at hperm
  rw [hsig] at hperm
  have hiR : i ∈ R := hRR'.mem_iff.mpr (List.mem_cons_self i R')
  have hnd2 : (i :: R').Nodup := hRR'.nodup hndR
  have hiR' : i ∉ R' := (List.nodup_cons.mp hnd2).1
  have hlayer : (layerSigs names t R).Perm (layerSigs names t (i :: R')) :=
    hRR'.map _
  have hperm2 : ((t, names.getD i "") :: rest.map evSig).Perm
      ((t, names.getD i "") ::
        (layerSigs names t R' ++ layerSigs names (t + 1) D)) :=
    hperm.trans (hlayer.append_right _)
  have hrest := hperm2.cons_inv
  refine ⟨?_, hrest⟩
  intro x hx hxe
  have hxs : evSig x ∈
      layerSigs names t R' ++ layerSigs names (t + 1) D :=
    hrest.mem_iff.mp (List.mem_map_of_mem evSig hx)
  rw [hxe, hsig] at hxs
  rcases List.mem_append.mp hxs with hm | hm
  · obtain ⟨j, hjE, hjsig⟩ := List.mem_map.mp hm
    have h2 : names.getD j "" = names.getD i "" := congrArg Prod.snd hjsig
    have hjR : j ∈ R := hRR'.mem_iff.mpr (List.mem_cons_of_mem i hjE)
    have hji : j = i := names_getD_inj hnd (hRb j hjR) (hRb i hiR) h2
    subst hji
    exact hiR' hjE
  · obtain ⟨j, hjD, hjsig⟩ := List.mem_map.mp hm
    have h1 : t + 1 = t := congrArg Prod.fst hjsig
    omega

/-- One iteration of the run loop under the ring invariant: some index
`i` of the current layer is dispatched, its forward neighbor joins the
next layer, the counters advance by one event and one frontier, and
the simulation clock moves to the layer time. -/
theorem ring_step {names : List String} (hnd : names.Nodup)
    (hN : 1 ≤ names.length) {t : Int} {R D : List Nat} {s : CoreState}
    (inv : ringInv names t R D s) (hR : R ≠ []) {mt : Int}
    (hmt : ¬ mt < t) (fuel : Nat) (acc : RunAcc) :
    ∃ (i : Nat) (R' : List Nat) (s' : CoreState) (en : LogEntry),
      R.Perm (i :: R') ∧
      runLoop (fuel + 1) s mt acc =
        runLoop fuel s' mt
          ⟨acc.num_events + 1, acc.num_frontiers + 1, acc.stop_evals,
            acc.log ++ [en]⟩ ∧
      ringInv names t R' (D ++ [(i + 1) % names.length]) s' ∧
      s'.current_time = t := by
  obtain ⟨hobj, hstopc, hsort, hperm, hvar, hndR, hRb, hDb, hbal⟩ := id inv
  cases hh : s.event_heap with
  | nil =>
    exfalso
    rw [hh, List.map_nil] at hperm
    have h0 := hperm.symm.eq_nil
    rcases List.append_eq_nil.mp h0 with ⟨h1, _⟩
    unfold layerSigs at h1
    exact hR (List.map_eq_nil_iff.mp h1)
  | cons e rest =>
    obtain ⟨het, i, hiR, hrecv⟩ := ring_head hnd inv hR hh
    have hi : i < names.length := hRb i hiR
    have hsig : evSig e = (t, names.getD i "") := by
      rw [evSig, het, hrecv]
    have hRR' : R.Perm (i :: R.erase i) := List.perm_cons_erase hiR
    obtain ⟨hne, hrest⟩ := ring_rest_sig hnd inv hh hRR' hsig
    have hvare : e.message.variant = "InitMsg" :=
      hvar e (by rw [hh]; exact List.mem_cons_self e rest)
    have hobj2 :
        ({ s with current_time := t, event_heap := rest } :
          CoreState).objects = ringObjs names := hobj
    have hdisp := ring_dispatch hnd hN hi hobj2 hrecv hvare
    have hsortr : List.Sorted (evLe (ringObjs names)) rest := by
      rw [hobj, hh] at hsort
      exact hsort.of_cons
    refine ⟨i, R.erase i,
      ({ s with
          current_time := t,
          objects := ringObjs names,
          event_heap := heapPush (ringObjs names)
            (schedEv
              ({ s with
                  current_time := t,
                  event_heap := rest,
                  objects := ringObjs names } : CoreState)
              (names.getD i "") (t + 1)
              (names.getD ((i + 1) % names.length) "") ringMsg)
            rest,
          next_sequence_number := s.next_sequence_number + 1 } : CoreState),
      logEntryOf e, hRR', ?_, ?_, rfl⟩
    · rw [runLoop, hh]
      simp only []
      rw [het, if_neg hmt]
      simp only [hstopc, Option.isSome_none, Bool.false_eq_true, if_false,
        Nat.add_zero]
      have hsn : stopNow s = false := by
        unfold stopNow
        rw [hstopc]
      simp only [hsn, Bool.false_eq_true, if_false]
      rw [popFrontier_single hne]
      simp only []
      rw [hstopc] at hdisp
      rw [hdisp]
      rfl
    · refine ⟨rfl, hstopc, ?_, ?_, ?_, hndR.erase i, ?_, ?_, ?_⟩
      · exact heapPush_sorted hsortr
      · have hp1 := (List.perm_orderedInsert (evLe (ringObjs names))
          (schedEv
            ({ s with
                current_time := t,
                event_heap := rest,
                objects := ringObjs names } : CoreState)
            (names.getD i "") (t + 1)
            (names.getD ((i + 1) % names.length) "") ringMsg) rest).map evSig
        simp only [List.map_cons] at hp1
        have hx : layerSigs names (t + 1)
            (D ++ [(i + 1) % names.length]) =
            layerSigs names (t + 1) D ++
              [(t + 1, names.getD ((i + 1) % names.length) "")] := by
          unfold layerSigs
          rw [List.map_append]
          rfl
        refine (hp1.trans (hrest.cons _)).trans ?_
        rw [hx, ← List.append_assoc]
        exact (List.perm_append_singleton _ _).symm
      · intro x hx
        rcases heapPush_mem.mp hx with hx | hx
        · rw [hx]
          rfl
        · exact hvar x (by rw [hh]; exact List.mem_cons_of_mem e hx)
      · intro j hj
        exact hRb j (List.mem_of_mem_erase hj)
      · intro j hj
        rcases List.mem_append.mp hj with hj | hj
        · exact hDb j hj
        · rw [List.mem_singleton.mp hj]
          exact ringSucc_lt i hN
      · have hmapD : (D ++ [(i + 1) % names.length]).map
            (ringPred names.length) =
            D.map (ringPred names.length) ++ [i] := by
          rw [List.map_append, List.map_singleton, ringPred_succ hi]
        rw [hmapD, ← List.append_assoc]
        refine (List.perm_append_singleton i _).trans ?_
        exact (hRR'.symm.append_right _).trans hbal

/-- Draining the current layer: dispatching all of `R` takes one
loop iteration per index, moves every successor into the next layer,
and advances the counters by the layer size. -/
theorem ring_drain {names : List String} (hnd : names.Nodup)
    (hN : 1 ≤ names.length) {t mt : Int} (hmt : ¬ mt < t) :
    ∀ (k : Nat) (R D : List Nat) (s : CoreState) (acc : RunAcc)
      (fuel : Nat), R.length = k → ringInv names t R D s →
      ∃ (D' : List Nat) (s' : CoreState) (L : List LogEntry),
        ringInv names t [] D' s' ∧
        (k = 0 → s' = s) ∧
        (k ≠ 0 → s'.current_time = t) ∧
        runLoop (k + fuel) s mt acc =
          runLoop fuel s' mt
            ⟨acc.num_events + k, acc.num_frontiers + k, acc.stop_evals,
              acc.log ++ L⟩ := by
  intro k
  induction k with
  | zero =>
    intro R D s acc fuel hlen inv
    have hRnil : R = [] := List.length_eq_zero.mp hlen
    subst hRnil
    refine ⟨D, s, [], inv, fun _ => rfl, fun h0 => absurd rfl h0, ?_⟩
    simp only [Nat.zero_add, Nat.add_zero, List.append_nil]
  | succ n ih =>
    intro R D s acc fuel hlen inv
    have hR : R ≠ [] := by
      intro h
      subst h
      simp at hlen
    obtain ⟨i, R', s1, en, hRR', heq, inv1, htime⟩ :=
      ring_step hnd hN inv hR hmt (n + fuel) acc
    have hlen' : R'.length = n := by
      have hl := hRR'.length_eq
      simp only [List.length_cons] at hl
      omega
    obtain ⟨D', s', L, inv', hz, hnz, heq2⟩ :=
      ih R' (D ++ [(i + 1) % names.length]) s1
        ⟨acc.num_events + 1, acc.num_frontiers + 1, acc.stop_evals,
          acc.log ++ [en]⟩ fuel hlen' inv1
    refine ⟨D', s', en :: L, inv', ?_, ?_, ?_⟩
    · intro h0
      exact absurd h0 (Nat.succ_ne_zero n)
    · intro _
      rcases Nat.eq_zero_or_pos n with hn0 | hn0
      · rw [hz hn0]
        exact htime
      · exact hnz (by omega)
    · have hshift : n + 1 + fuel = n + fuel + 1 := by omega
      have haccs :
          (⟨acc.num_events + 1 + n, acc.num_frontiers + 1 + n,
            acc.stop_evals, acc.log ++ [en] ++ L⟩ : RunAcc) =
          ⟨acc.num_events + (n + 1), acc.num_frontiers + (n + 1),
            acc.stop_evals, acc.log ++ (en :: L)⟩ := by
        have h1 : acc.num_events + 1 + n = acc.num_events + (n + 1) := by
          omega
        have h2 : acc.num_frontiers + 1 + n =
            acc.num_frontiers + (n + 1) := by
          omega
        rw [h1, h2, List.append_assoc]
        rfl
      rw [hshift, heq]
      exact heq2.trans (congrArg (runLoop fuel s' mt) haccs)

/-- Once the current layer is drained, the deferred layer becomes the
current layer of time `t + 1`. -/
theorem ring_advance {names : List String} (hnd : names.Nodup)
    (hN : 1 ≤ names.length) {t : Int} {D : List Nat} {s : CoreState}
    (inv : ringInv names t [] D s) :
    ringInv names (t + 1) D [] s := by
  obtain ⟨hobj, hstopc, hsort, hperm, hvar, _, _, hDb, hbal⟩ := inv
  have hbal' : (D.map (ringPred names.length)).Perm
      (List.range names.length) := hbal
  have hDnd : D.Nodup :=
    List.Nodup.of_map _ (hbal'.symm.nodup (List.nodup_range names.length))
  have hDid : D.map ((fun j => (j + 1) % names.length) ∘
      ringPred names.length) = D := by
    calc D.map ((fun j => (j + 1) % names.length) ∘
          ringPred names.length)
        = D.map id :=
          List.map_congr_left (fun a ha => ringSucc_pred (hDb a ha))
      _ = D := List.map_id D
  have hDperm : D.Perm (List.range names.length) := by
    have h2 := hbal'.map (fun j => (j + 1) % names.length)
    rw [List.map_map, hDid] at h2
    exact h2.trans (map_ringSucc_perm hN)
  refine ⟨hobj, hstopc, hsort, ?_, hvar, hDnd, hDb,
    fun j hj => absurd hj (List.not_mem_nil j), ?_⟩
  · have h0 : layerSigs names t ([] : List Nat) = [] := rfl
    rw [h0, List.nil_append] at hperm
    have h1 : layerSigs names (t + 1 + 1) ([] : List Nat) = [] := rfl
    rw [h1, List.append_nil]
    exact hperm
  · rw [List.map_nil, List.append_nil]
    exact hDperm

/-- Running `d` whole layers of the ring: each layer dispatches
`names.length` events and moves the clock to its layer time; the final
layer time is one past `mt`, so every intermediate layer is
dispatched. -/
theorem ring_layers {names : List String} (hnd : names.Nodup)
    (hN : 1 ≤ names.length) {mt : Int} :
    ∀ (d : Nat) (t : Int) (R : List Nat) (s : CoreState) (acc : RunAcc)
      (fuel : Nat), ringInv names t R [] s → t + d = mt + 1 →
      ∃ (R' : List Nat) (s' : CoreState) (L : List LogEntry),
        ringInv names (t + d) R' [] s' ∧
        (d = 0 → s' = s) ∧
        (d ≠ 0 → s'.current_time = t + d - 1) ∧
        runLoop (d * names.length + fuel) s mt acc =
          runLoop fuel s' mt
            ⟨acc.num_events + d * names.length,
              acc.num_frontiers + d * names.length, acc.stop_evals,
              acc.log ++ L⟩ := by
  intro d
  induction d with
  | zero =>
    intro t R s acc fuel inv hd
    refine ⟨R, s, [], ?_, fun _ => rfl, fun h0 => absurd rfl h0, ?_⟩
    · have h0 : t + ((0 : Nat) : Int) = t := by push_cast; ring
      rw [h0]
      exact inv
    · simp only [Nat.zero_mul, Nat.zero_add, Nat.add_zero, List.append_nil]
  | succ m ih =>
    intro t R s acc fuel inv hd
    have hmt' : ¬ mt < t := by
      push_cast at hd
      omega
    obtain ⟨hobj, hstopc, hsort, hperm, hvar, hndR, hRb, hDb, hbal⟩ :=
      id inv
    have hlen : R.length = names.length := by
      have hl := hbal.length_eq
      simpa using hl
    obtain ⟨D', s1, L1, inv1, hz1, hnz1, heq1⟩ :=
      ring_drain hnd hN hmt' names.length R [] s acc
        (m * names.length + fuel) hlen inv
    have htime1 : s1.current_time = t := hnz1 (by omega)
    have inv2 : ringInv names (t + 1) D' [] s1 := ring_advance hnd hN inv1
    obtain ⟨R'', s', L2, inv', hz2, hnz2, heq2⟩ :=
      ih (t + 1) D' s1
        ⟨acc.num_events + names.length, acc.num_frontiers + names.length,
          acc.stop_evals, acc.log ++ L1⟩ fuel inv2
        (by push_cast at hd ⊢; omega)
    refine ⟨R'', s', L1 ++ L2, ?_, ?_, ?_, ?_⟩
    · have hteq : t + ((m + 1 : Nat) : Int) = t + 1 + (m : Int) := by
        push_cast
        ring
      rw [hteq]
      exact inv'
    · intro h0
      exact absurd h0 (Nat.succ_ne_zero m)
    · intro _
      rcases Nat.eq_zero_or_pos m with hm0 | hm0
      · rw [hz2 hm0, htime1]
        subst hm0
        push_cast
        ring
      · rw [hnz2 (by omega)]
        push_cast
        ring
    · have hshift : (m + 1) * names.length + fuel =
          names.length + (m * names.length + fuel) := by
        ring
      have haccs :
          (⟨acc.num_events + names.length + m * names.length,
            acc.num_frontiers + names.length + m * names.length,
            acc.stop_evals, acc.log ++ L1 ++ L2⟩ : RunAcc) =
          ⟨acc.num_events + (m + 1) * names.length,
            acc.num_frontiers + (m + 1) * names.length,
            acc.stop_evals, acc.log ++ (L1 ++ L2)⟩ := by
        have h1 : acc.num_events + names.length + m * names.length =
            acc.num_events + (m + 1) * names.length := by
          ring
        have h2 : acc.num_frontiers + names.length + m * names.length =
            acc.num_frontiers + (m + 1) * names.length := by
          ring
        rw [h1, h2, List.append_assoc]
      rw [hshift, heq1]
      exact heq2.trans (congrArg (runLoop fuel s' mt) haccs)

/-- When the pending layer lies beyond `max_time`, the loop halts
with `max_time_reached` and the clock of the last dispatch. -/
theorem ring_final {names : List String} (hnd : names.Nodup) {t : Int}
    {R D : List Nat} {s : CoreState} (inv : ringInv names t R D s)
    (hR : R ≠ []) {mt : Int} (hmt : mt < t) (fuel : Nat) (acc : RunAcc) :
    runLoop (fuel + 1) s mt acc =
      ⟨s, acc.num_events, acc.num_frontiers, acc.stop_evals, acc.log,
        .max_time_reached, s.current_time⟩ := by
  obtain ⟨hobj, hstopc, hsort, hperm, hvar, hndR, hRb, hDb, hbal⟩ := id inv
  cases hh : s.event_heap with
  | nil =>
    exfalso
    rw [hh, List.map_nil] at hperm
    have h0 := hperm.symm.eq_nil
    rcases List.append_eq_nil.mp h0 with ⟨h1, _⟩
    unfold layerSigs at h1
    exact hR (List.map_eq_nil_iff.mp h1)
  | cons e rest =>
    obtain ⟨het, i, hiR, hrecv⟩ := ring_head hnd inv hR hh
    rw [runLoop, hh]
    simp only []
    rw [het, if_pos hmt]

/-- Staging the initial ring events: each listed object's pre-run
callback pushes one event to its forward neighbor one time unit past
the (unchanged) current time. -/
theorem ring_init_aux {names : List String} (hnd : names.Nodup)
    (hN : 1 ≤ names.length) :
    ∀ (l : List Nat) (s : CoreState), s.objects = ringObjs names →
      (∀ j ∈ l, j < names.length) →
      ∃ s' : CoreState,
        initObjs s (l.map (ringObj names)) = .ok s' ∧
        s'.objects = ringObjs names ∧
        s'.stop_condition = s.stop_condition ∧
        s'.current_time = s.current_time ∧
        (List.Sorted (evLe (ringObjs names)) s.event_heap →
          List.Sorted (evLe (ringObjs names)) s'.event_heap) ∧
        ((∀ e ∈ s.event_heap, e.message.variant = "InitMsg") →
          ∀ e ∈ s'.event_heap, e.message.variant = "InitMsg") ∧
        (s'.event_heap.map evSig).Perm
          (s.event_heap.map evSig ++
            l.map (fun j =>
              (s.current_time + 1,
                names.getD ((j + 1) % names.length) ""))) := by
  intro l
  induction l with
  | nil =>
    intro s hobj hb
    refine ⟨s, rfl, hobj, rfl, rfl, fun h => h, fun h => h, ?_⟩
    simp
  | cons i l' ih =>
    intro s hobj hb
    have hi : i < names.length := hb i (List.mem_cons_self i l')
    rw [List.map_cons, initObjs]
    have hpr : (ringObj names i).cls.init_before_run
        (ringObj names i).state (ringObj names i).name =
        ([(i : Int)], [⟨.delay 1, ringNext names [(i : Int)], ringMsg⟩]) :=
      rfl
    have hname : (ringObj names i).name = names.getD i "" := rfl
    have hcls : (ringObj names i).cls = ringCls names := rfl
    rw [hpr]
    simp only []
    rw [hname, hobj, updateObjState_ring hnd hi, hcls,
      ring_sched hnd hN (names.getD i "") hi rfl]
    simp only []
    obtain ⟨s3, hrun, hobj3, hstop3, hcur3, hsorted3, hvar3, hperm3⟩ :=
      ih ({ s with
          objects := ringObjs names,
          event_heap := heapPush (ringObjs names)
            (schedEv ({ s with objects := ringObjs names } : CoreState)
              (names.getD i "") (s.current_time + 1)
              (names.getD ((i + 1) % names.length) "") ringMsg)
            s.event_heap,
          next_sequence_number := s.next_sequence_number + 1 } : CoreState)
        rfl (fun j hj => hb j (List.mem_cons_of_mem i hj))
    refine ⟨s3, hrun, hobj3, hstop3, hcur3, ?_, ?_, ?_⟩
    · intro hs
      exact hsorted3 (heapPush_sorted hs)
    · intro hv
      refine hvar3 ?_
      intro e he
      rcases heapPush_mem.mp he with he | he
      · rw [he]
        rfl
      · exact hv e he
    · have hp2 : ((heapPush (ringObjs names)
          (schedEv ({ s with objects := ringObjs names } : CoreState)
            (names.getD i "") (s.current_time + 1)
            (names.getD ((i + 1) % names.length) "") ringMsg)
          s.event_heap).map evSig).Perm
          ((s.current_time + 1,
            names.getD ((i + 1) % names.length) "") ::
            s.event_heap.map evSig) := by
        have hp0 := (List.perm_orderedInsert (evLe (ringObjs names))
          (schedEv ({ s with objects := ringObjs names } : CoreState)
            (names.getD i "") (s.current_time + 1)
            (names.getD ((i + 1) % names.length) "") ringMsg)
          s.event_heap).map evSig
        simp only [List.map_cons] at hp0
        exact hp0
      rw [List.map_cons]
      exact hperm3.trans ((hp2.append_right _).trans List.perm_middle.symm)

/-- The ring's initial layer: the successors of all ring indices. -/
def ringR0 (names : List String) : List Nat :=
  (List.range names.length).map (fun i => (i + 1) % names.length)

/-- `initialize()` on the ring schedules one event per object at time
1, establishing the layer-1 ring invariant with the clock still at
0. -/
theorem ring_init {names : List String} (hnd : names.Nodup)
    (hN : 1 ≤ names.length) :
    ∃ c : CoreState,
      initSim (mkCore (ringObjs names) none) = .ok c ∧
      ringInv names 1 (ringR0 names) [] c ∧
      c.current_time = 0 := by
  obtain ⟨s', hrun, hobj', hstop', hcur', hsort', hvar', hperm'⟩ :=
    ring_init_aux hnd hN (List.range names.length)
      (mkCore (ringObjs names) none) rfl
      (fun j hj => List.mem_range.mp hj)
  refine ⟨s', hrun, ⟨hobj', hstop', ?_, ?_, ?_, ?_, ?_, ?_, ?_⟩, hcur'⟩
  · rw [hobj']
    exact hsort' List.sorted_nil
  · have hmap0 : (List.range names.length).map
        (fun j => ((0 : Int) + 1,
          names.getD ((j + 1) % names.length) "")) =
        (List.range names.length).map
          (fun j => ((1 : Int),
            names.getD ((j + 1) % names.length) "")) :=
      List.map_congr_left (fun a _ => by norm_num)
    have htarget : layerSigs names 1 (ringR0 names) =
        (List.range names.length).map
          (fun j => ((1 : Int),
            names.getD ((j + 1) % names.length) "")) := by
      unfold layerSigs ringR0
      rw [List.map_map]
      rfl
    have h2 : layerSigs names (1 + 1) ([] : List Nat) = [] := rfl
    rw [h2, List.append_nil, htarget, ← hmap0]
    exact hperm'
  · intro e he
    exact hvar' (fun x hx => absurd hx (List.not_mem_nil x)) e he
  · refine (List.nodup_range names.length).map_on ?_
    intro x hx y hy hxy
    exact ringSucc_inj (List.mem_range.mp hx) (List.mem_range.mp hy) hxy
  · intro j hj
    obtain ⟨a, _, rfl⟩ := List.mem_map.mp hj
    exact ringSucc_lt a hN
  · intro j hj
    exact absurd hj (List.not_mem_nil j)
  · rw [List.map_nil, List.append_nil]
    exact map_ringSucc_perm hN

/-- C3: for a ring of `N` distinctly named objects in which every
object's pre-run callback schedules one event to its forward neighbor
at delay 1 and every handler reschedules the same way,
`initialize(); run(10)` dispatches exactly `N * 10` events, finishes
with final simulation time 10, and reports termination reason
`max_time_reached`. -/
theorem ring_run_counts (names : List String) (w : Int)
    (hnd : names.Nodup) (hN : 1 ≤ names.length) :
    ∃ r : RunResult,
      initAndRun (10 * names.length + 1) (ringSim names w) 10 = some r ∧
      r.num_events = 10 * names.length ∧
      r.final_sim_time = 10 ∧
      r.termination_reason = .max_time_reached := by
  obtain ⟨c, hinit, inv1, hcur⟩ := ring_init hnd hN
  obtain ⟨R', s', L, inv', _, hnz, heq⟩ :=
    ring_layers hnd hN 10 1 (ringR0 names) c ⟨0, 0, 0, []⟩ 1 inv1
      (by norm_num : (1 : Int) + ((10 : Nat) : Int) = 10 + 1)
  have hcur' : s'.current_time = 10 := by
    have h1 := hnz (by omega)
    rw [h1]
    norm_num
  have inv11 : ringInv names 11 R' [] s' := by
    have h11 : (1 : Int) + ((10 : Nat) : Int) = 11 := by norm_num
    rw [h11] at inv'
    exact inv'
  have hR' : R' ≠ [] := by
    obtain ⟨_, _, _, _, _, _, _, _, hbal⟩ := id inv11
    intro h0
    subst h0
    have hl := hbal.length_eq
    simp at hl
    omega
  have hfin := ring_final hnd inv11 hR'
    (by norm_num : (10 : Int) < 11) 0
    ⟨0 + 10 * names.length, 0 + 10 * names.length, 0, [] ++ L⟩
  rw [hcur'] at hfin
  refine ⟨⟨s', 0 + 10 * names.length, 0 + 10 * names.length, 0, [] ++ L,
    .max_time_reached, 10⟩, ?_, Nat.zero_add _, rfl, rfl⟩
  unfold initAndRun
  have hcore : (ringSim names w).core = mkCore (ringObjs names) none := rfl
  rw [hcore, hinit]
  simp only []
  unfold simulate
  rw [heq]
  exact congrArg some hfin

/-- Witness for C3: the four-object ring of the performance notebook
satisfies the hypotheses, and its run dispatches 40 events, ends at
time 10 and reports `max_time_reached`. -/
theorem ring_run_counts_witness :
    names4.Nodup ∧ 1 ≤ names4.length ∧
    ∃ r : RunResult,
      initAndRun (10 * names4.length + 1) (ringSim names4 0) 10 =
        some r ∧
      r.num_events = 10 * names4.length ∧
      r.final_sim_time = 10 ∧
      r.termination_reason = .max_time_reached :=
  ⟨by decide, by decide, ring_run_counts names4 0 (by decide) (by decide)⟩

end DESim
